import Mathlib

/-!
Verification of the opkg_go package manager against its specification.

The Go sources are shallowly embedded: Go strings are modelled as lists of
byte values (`Str`), because the Go code indexes strings byte by byte.
Pure Go functions become Lean functions; the concurrent feed update is
modelled by passing the goroutine completion order explicitly; filesystem
writes are modelled as explicit operation traces (`FsOp`); the HTTP
downloader and the gzip decompressor, which are external collaborators of
the core, are passed in as oracle functions.

Loops of the Go source that Lean cannot accept directly as structural
recursion are given an explicit fuel argument that is always initialised
with an exact or safe upper bound on the source loop's iteration count, so
the embedded function computes exactly what the source loop computes and
stays reducible by the kernel.
-/

set_option linter.dupNamespace false
set_option linter.unusedVariables false

namespace OpkgGo

/-- Go strings viewed as their byte sequences. -/
abbrev Str := List Nat

/-- Byte string of an ASCII Lean string literal.  For ASCII text the UTF-8
bytes coincide with the character codes, so this matches Go's byte view of
the same literal. -/
def bs (s : String) : Str := s.data.map Char.toNat

/-- A byte of Go's `" \t\n\v\f\r"` white-space set (the ASCII portion of
Unicode white space, which is all `strings.TrimSpace` can see in the ASCII
inputs this development evaluates). -/
def isSpaceByte (b : Nat) : Bool :=
  decide (b = 9 ∨ b = 10 ∨ b = 11 ∨ b = 12 ∨ b = 13 ∨ b = 32)

/-- Mirrors `strings.TrimSpace` on ASCII text. -/
def trimSpace (s : Str) : Str :=
  ((s.dropWhile isSpaceByte).reverse.dropWhile isSpaceByte).reverse

/-- Mirrors `strings.HasPrefix s pre`. -/
def strStartsWith : Str → Str → Bool
  | _, [] => true
  | [], _ :: _ => false
  | x :: xs, y :: ys => x == y && strStartsWith xs ys

/-- Mirrors `strings.Contains`. -/
def goStrContains (s sub : Str) : Bool := s.tails.any (fun t => strStartsWith t sub)

/-- Mirrors `strings.TrimSuffix`: drop one trailing copy of `suf` if present. -/
def trimOneSuffix (s suf : Str) : Str :=
  if strStartsWith s.reverse suf.reverse then s.take (s.length - suf.length) else s

/-- Lower-casing of a single byte, the ASCII portion of `strings.ToLower`
and of the per-rune fold used by `strings.EqualFold`. -/
def asciiLower (b : Nat) : Nat := if 65 ≤ b ∧ b ≤ 90 then b + 32 else b

/-- Mirrors `strings.EqualFold` on ASCII text. -/
def goEqualFold (a b : Str) : Bool := a.map asciiLower == b.map asciiLower

/-- Mirrors `strings.Join(parts, " ")`. -/
def joinSpace (parts : List Str) : Str := (parts.intersperse (bs " ")).flatten

/-- Go map lookup over the association-list model of a `map[string]V`. -/
def mapLookup (m : List (Str × α)) (k : Str) : Option α :=
  (m.find? (fun kv => kv.1 == k)).map (·.2)

/-- Go map assignment over the association-list model: replace the binding
in place, or append a new one.  Iterating the list visits each key once, in
insertion order (Go's map iteration order is unspecified; every claim that
is sensitive to it sorts, or is evaluated on concrete single-binding maps). -/
def mapInsert (m : List (Str × α)) (k : Str) (v : α) : List (Str × α) :=
  match m with
  | [] => [(k, v)]
  | (k', v') :: rest => if k' = k then (k, v) :: rest else (k', v') :: mapInsert rest k v

/-- Insertion step for the insertion sort used to model `sort.Slice` and
`sort.Strings` results. -/
def insertLe (le : α → α → Bool) (x : α) : List α → List α
  | [] => [x]
  | y :: ys => if le x y then x :: y :: ys else y :: insertLe le x ys

/-- Insertion sort modelling the sorted output of `sort.Slice`/`sort.Strings`.
The sorts in this program all use a strict name order over distinct keys, so
the sorted result is unique and stability is irrelevant. -/
def sortLe (le : α → α → Bool) (l : List α) : List α := l.foldr (insertLe le) []

/-- The errors produced by the embedded core, one constructor per source
error site (messages are represented structurally so errors compare). -/
inductive GoErr where
  | indexesNotLoaded
  | atLeastOnePattern
  | packageNotFound (name : Str)
  | statusPathNotConfigured
  | emptyFeedURI (feedName : Str)
  | fetchFeedErr (feedName : Str) (inner : GoErr)
  | decompressErr (feedName : Str) (inner : GoErr)
  | parseFeedErr (feedName : Str) (inner : GoErr)
  | continuationBeforeKey (line : Str)
  | malformedControlLine (line : Str)
  | badConfig (lineNo : Nat) (msg : Str)
  | network (msg : Str)
deriving DecidableEq

/-- Decidable equality for `Except`, so that concrete runs of the embedded
fallible functions can be checked by `decide`. -/
instance exceptDecEq {ε α} [DecidableEq ε] [DecidableEq α] : DecidableEq (Except ε α) :=
  fun x y =>
    match x, y with
    | .ok a, .ok b =>
      match decEq a b with
      | isTrue h => isTrue (by rw [h])
      | isFalse h => isFalse (fun hc => h (Except.ok.inj hc))
    | .error a, .error b =>
      match decEq a b with
      | isTrue h => isTrue (by rw [h])
      | isFalse h => isFalse (fun hc => h (Except.error.inj hc))
    | .ok _, .error _ => isFalse (fun hc => Except.noConfusion hc)
    | .error _, .ok _ => isFalse (fun hc => Except.noConfusion hc)

/-- Mirrors `strconv.Atoi` on a 64-bit platform: optional sign, at least
one digit, nothing else, and the value must fit a signed 64-bit integer
(on a range error Go reports an error, which every caller here treats as
plain failure). -/
def goAtoi (s : Str) : Option Int :=
  match s with
  | [] => none
  | c :: rest =>
    let neg : Bool := c = 45
    let digs : Str := if c = 43 ∨ c = 45 then rest else s
    if digs = [] then none
    else if digs.all (fun b => decide (48 ≤ b ∧ b ≤ 57)) then
      let v : Int := if neg then -((digs.foldl (fun acc d => acc * 10 + (d - 48)) 0 : Nat) : Int)
                     else ((digs.foldl (fun acc d => acc * 10 + (d - 48)) 0 : Nat) : Int)
      if -(2^63) ≤ v ∧ v ≤ 2^63 - 1 then some v else none
    else none

/-! ## internal/version: the Debian-style version comparator -/

namespace Version

/-- Mirrors `unicode.IsDigit(rune(s[i]))` applied to a single byte: among
byte values only the ASCII digits are Unicode digits. -/
def goIsDigit (b : Nat) : Bool := decide (48 ≤ b ∧ b ≤ 57)

/-- Mirrors `unicode.IsLetter` on byte values: ASCII letters plus the
Latin-1 letters (ª, µ, º, À–Ö, Ø–ö, ø–ÿ; × and ÷ are symbols). -/
def goIsLetter (b : Nat) : Bool :=
  decide ((65 ≤ b ∧ b ≤ 90) ∨ (97 ≤ b ∧ b ≤ 122) ∨ b = 170 ∨ b = 181 ∨ b = 186 ∨
    (192 ≤ b ∧ b ≤ 214) ∨ (216 ≤ b ∧ b ≤ 246) ∨ (248 ≤ b ∧ b ≤ 255))

/-- Mirrors `unicode.ToLower` on byte values: the upper-case ASCII and
Latin-1 letters map 32 positions up, everything else is unchanged. -/
def goToLower (b : Nat) : Nat :=
  if (65 ≤ b ∧ b ≤ 90) ∨ (192 ≤ b ∧ b ≤ 214) ∨ (216 ≤ b ∧ b ≤ 222) then b + 32 else b

/-- Mirrors `order`: the character weight used by the non-digit comparison.
`0` is the end-of-string sentinel produced by `nextRune`. -/
def order (r : Nat) : Int :=
  if r = 0 then 0
  else if r = 126 then -1
  else if goIsDigit r then (r : Int)
  else if goIsLetter r then (goToLower r : Int) + 256
  else (r : Int) + 256

/-- Mirrors `leadingNonDigits`. -/
def leadingNonDigits (s : Str) : Str := s.takeWhile (fun b => !goIsDigit b)

/-- Mirrors `leadingDigits`. -/
def leadingDigits (s : Str) : Str := s.takeWhile goIsDigit

/-- The loop of `compareNonDigits`, with fuel.  `nextRune` returns the next
byte or the sentinel `0` once the index passes the end; advancing the index
is `List.tail`.  The loop runs at most `max |a| |b|` iterations, which is
how `compareNonDigits` instantiates the fuel. -/
def cndAux : Nat → Str → Str → Int
  | 0, _, _ => 0
  | f+1, a, b =>
    let ra := a.headD 0
    let rb := b.headD 0
    if order ra < order rb then -1
    else if order rb < order ra then 1
    else if ra = 0 ∧ rb = 0 then 0
    else cndAux f a.tail b.tail

/-- Mirrors `compareNonDigits`. -/
def compareNonDigits (a b : Str) : Int := cndAux (max a.length b.length) a b

/-- Mirrors Go's built-in `<` on strings: bytewise lexicographic order
where a proper prefix is smaller. -/
def goStrLess : Str → Str → Bool
  | [], [] => false
  | [], _ :: _ => true
  | _ :: _, [] => false
  | x :: xs, y :: ys => if x < y then true else if y < x then false else goStrLess xs ys

/-- Mirrors `compareDigits`: strip leading zeros, compare lengths, then
compare the trimmed strings lexicographically. -/
def compareDigits (a b : Str) : Int :=
  let a' := a.dropWhile (· == 48)
  let b' := b.dropWhile (· == 48)
  if a'.length ≠ b'.length then (if a'.length < b'.length then -1 else 1)
  else if a' = b' then 0
  else if goStrLess a' b' then -1 else 1

/-- The loop of `comparePart`, with fuel.  Every executed iteration strips
at least one byte from `a ++ b`, so `|a| + |b|` iterations always suffice;
`comparePart` instantiates the fuel with that bound.  The final three
conditionals mirror the dead tail of the Go loop body (it is unreachable:
a non-empty residual always has a non-empty digit or non-digit run). -/
def cpAux : Nat → Str → Str → Int
  | 0, _, _ => 0
  | f+1, a, b =>
    if a = [] ∧ b = [] then 0
    else
      let an := leadingNonDigits a
      let bn := leadingNonDigits b
      if an ≠ [] ∨ bn ≠ [] then
        let c := compareNonDigits an bn
        if c ≠ 0 then c else cpAux f (a.drop an.length) (b.drop bn.length)
      else
        let ad := leadingDigits a
        let bd := leadingDigits b
        if ad ≠ [] ∨ bd ≠ [] then
          let c := compareDigits ad bd
          if c ≠ 0 then c else cpAux f (a.drop ad.length) (b.drop bd.length)
        else if a = [] then -1
        else if b = [] then 1
        else 0

/-- Mirrors `comparePart`. -/
def comparePart (a b : Str) : Int := cpAux (a.length + b.length) a b

/-- Mirrors `splitEpoch`: split on the first `:`; a missing or non-numeric
epoch leaves the whole string (colon included) as the remainder. -/
def splitEpoch (s : Str) : Int × Str :=
  let pre := s.takeWhile (fun c => c ≠ 58)
  if pre.length = s.length then (0, s)
  else
    match goAtoi pre with
    | some e => (e, s.drop (pre.length + 1))
    | none => (0, s)

/-- Mirrors `splitRevision`: split on the last `-`. -/
def splitRevision (s : Str) : Str × Str :=
  let sufLen := (s.reverse.takeWhile (fun c => c ≠ 45)).length
  if sufLen = s.length then (s, [])
  else (s.take (s.length - sufLen - 1), s.drop (s.length - sufLen))

/-- Mirrors `Compare`: epoch, then upstream part, then revision part. -/
def Compare (a b : Str) : Int :=
  let ea := (splitEpoch a).1
  let ra := (splitEpoch a).2
  let eb := (splitEpoch b).1
  let rb := (splitEpoch b).2
  if ea ≠ eb then (if ea < eb then -1 else 1)
  else
    let ua := (splitRevision ra).1
    let da := (splitRevision ra).2
    let ub := (splitRevision rb).1
    let db := (splitRevision rb).2
    let c := comparePart ua ub
    if c ≠ 0 then c else comparePart da db

end Version

/-! ## internal/format: control paragraphs -/

namespace Format

/-- Mirrors `format.Paragraph`: the `Fields` map modelled as an association
list in insertion order. -/
structure Paragraph where
  fields : List (Str × Str)
deriving DecidableEq

/-- Mirrors `Paragraph.Value`: the first case-insensitive match wins.  (Go
iterates a map, so with keys differing only in case the winner is
unspecified; paragraphs evaluated here never have such keys.) -/
def Paragraph.Value (p : Paragraph) (key : Str) : Str :=
  match p.fields.find? (fun kv => goEqualFold kv.1 key) with
  | some kv => kv.2
  | none => []

/-- Append a continuation to the binding of `k`, mirroring
`current.Fields[lastKey] += "\n" + trimmed`. -/
def mapAppendNl (m : List (Str × Str)) (k add : Str) : List (Str × Str) :=
  match m with
  | [] => [(k, 10 :: add)]
  | (k', v') :: rest =>
    if k' = k then (k, v' ++ 10 :: add) :: rest else (k', v') :: mapAppendNl rest k add

/-- Mirrors `bufio.ScanLines` over a whole byte stream: split at `\n`,
no token for a final empty rest, and strip one trailing `\r` per line. -/
def scanLines (data : Str) : List Str :=
  if data = [] then []
  else
    let parts := data.splitOn 10
    let parts := if data.getLast? = some 10 then parts.dropLast else parts
    parts.map (fun l => if l.getLast? = some 13 then l.dropLast else l)

/-- One line of the `ParseControl` loop.  State: finished paragraphs, the
current field list, and `lastKey` (empty when no key has been seen). -/
def parseControlLine (st : List Paragraph × List (Str × Str) × Str) (line : Str) :
    Except GoErr (List Paragraph × List (Str × Str) × Str) :=
  let paras := st.1
  let current := st.2.1
  let lastKey := st.2.2
  if line = [] then
    .ok (if current = [] then paras else paras ++ [⟨current⟩], [], [])
  else if strStartsWith line (bs " ") ∨ strStartsWith line (bs "\t") then
    if lastKey = [] then .error (.continuationBeforeKey line)
    else .ok (paras, mapAppendNl current lastKey (line.dropWhile (fun b => b = 32 ∨ b = 9)), lastKey)
  else
    let pre := line.takeWhile (fun b => b ≠ 58)
    if pre.length = line.length then .error (.malformedControlLine line)
    else
      let key := trimSpace pre
      let value := trimSpace (line.drop (pre.length + 1))
      .ok (paras, mapInsert current key value, key)

/-- Mirrors `ParseControl` applied to in-memory bytes. -/
def parseControl (data : Str) : Except GoErr (List Paragraph) :=
  match (scanLines data).foldl
      (fun acc line => match acc with
        | .error e => .error e
        | .ok st => parseControlLine st line)
      (Except.ok ([], [], [])) with
  | .error e => .error e
  | .ok (paras, current, _) =>
    .ok (if current = [] then paras else paras ++ [⟨current⟩])

end Format

/-! ## internal/config -/

namespace Config

/-- Mirrors `config.Feed` (the Go field is named `Type`, a Lean keyword). -/
structure Feed where
  name : Str
  uri : Str
  kind : Str
deriving DecidableEq

/-- Mirrors `config.Destination`. -/
structure Destination where
  name : Str
  path : Str
deriving DecidableEq

/-- Mirrors `config.Architecture`. -/
structure Architecture where
  name : Str
  priority : Int
deriving DecidableEq

/-- Mirrors `config.Config` with the options map as an association list. -/
structure Config where
  options : List (Str × Str)
  feeds : List Feed
  destinations : List Destination
  includes : List Str
  architectures : List Architecture
deriving DecidableEq

/-- The empty configuration `Load` starts from. -/
def emptyConfig : Config :=
  { options := [], feeds := [], destinations := [], includes := [], architectures := [] }

/-- The tokenizer loop of `config.fields`: double quotes toggle quoting and
are dropped; unquoted space and tab flush the current token. -/
def fieldsAux : Str → Bool → Str → List Str → List Str
  | [], _, cur, acc => if cur = [] then acc else acc ++ [cur]
  | ch :: rest, inQuote, cur, acc =>
    if ch = 34 then fieldsAux rest (!inQuote) cur acc
    else if (ch = 32 ∨ ch = 9) ∧ ¬inQuote then
      (if cur = [] then fieldsAux rest inQuote [] acc
       else fieldsAux rest inQuote [] (acc ++ [cur]))
    else fieldsAux rest inQuote (cur ++ [ch]) acc

/-- Mirrors `config.fields`. -/
def fields (line : Str) : List Str := fieldsAux line false [] []

/-- The directive switch of `config.Load` for one non-blank line.  The
`include` directive only records the pattern: the glob expansion and the
recursive load read the filesystem, and no claim depends on them. -/
def parseConfigLine (cfg : Config) (lineNo : Nat) (raw : Str) : Except GoErr Config :=
  match fields raw with
  | [] => .ok cfg
  | t0 :: trest =>
    if t0 = bs "option" then
      match trest with
      | key :: v0 :: vrest =>
        .ok { cfg with options := mapInsert cfg.options key (joinSpace (v0 :: vrest)) }
      | _ => .error (.badConfig lineNo (bs "option expects key and value"))
    else if t0 = bs "dest" then
      match trest with
      | name :: path :: _ =>
        .ok { cfg with destinations := cfg.destinations ++ [{ name := name, path := path }] }
      | _ => .error (.badConfig lineNo (bs "dest expects name and path"))
    else if t0 = bs "src" ∨ t0 = bs "src/gz" ∨ t0 = bs "src/sig" then
      match trest with
      | name :: uri :: _ =>
        .ok { cfg with feeds := cfg.feeds ++ [{ name := name, uri := uri, kind := t0 }] }
      | _ => .error (.badConfig lineNo (bs "src expects name and URI"))
    else if t0 = bs "arch" then
      match trest with
      | [] => .error (.badConfig lineNo (bs "arch expects name and optional priority"))
      | name :: [] =>
        .ok { cfg with architectures := cfg.architectures ++ [{ name := name, priority := 0 }] }
      | name :: prio :: _ =>
        match goAtoi prio with
        | some pr =>
          .ok { cfg with architectures := cfg.architectures ++ [{ name := name, priority := pr }] }
        | none => .error (.badConfig lineNo (bs "invalid architecture priority"))
    else if t0 = bs "include" then
      match trest with
      | [] => .error (.badConfig lineNo (bs "include expects a glob"))
      | pat :: _ => .ok { cfg with includes := cfg.includes ++ [pat] }
    else if trest ≠ [] then
      .ok { cfg with options := mapInsert cfg.options t0 (joinSpace trest) }
    else if t0.contains 61 then
      let k := t0.takeWhile (fun c => c ≠ 61)
      let v := t0.drop (k.length + 1)
      .ok { cfg with options := mapInsert cfg.options (trimSpace k) (trimSpace v) }
    else .error (.badConfig lineNo (bs "unsupported directive"))

/-- The per-line loop of `config.Load` over the lines of one file: blank
lines and `#`/`//` comments are skipped, everything else goes through the
directive switch. -/
def parseLines (lines : List Str) : Except GoErr Config :=
  match lines.foldl
      (fun acc line => match acc with
        | .error e => .error e
        | .ok (cfg, n) =>
          let raw := trimSpace line
          if raw = [] ∨ strStartsWith raw (bs "#") ∨ strStartsWith raw (bs "//") then
            .ok (cfg, n + 1)
          else match parseConfigLine cfg (n + 1) raw with
            | .error e => .error e
            | .ok cfg' => .ok (cfg', n + 1))
      (Except.ok (emptyConfig, 0)) with
  | .error e => .error e
  | .ok (cfg, _) => .ok cfg

/-- Mirrors `Config.FindOption` (managers always hold a configuration, so
the nil-receiver branch is not modelled). -/
def FindOption (c : Config) (key fallback : Str) : Str :=
  match mapLookup c.options key with
  | some v => v
  | none => fallback

end Config

/-! ## path handling: `path.Clean`, `filepath.Join`, `filepath.Dir` -/

/-- Mirrors `path.Clean` (equal to `filepath.Clean` on Unix): drop empty and
`.` elements, resolve `..` against the element stack, keep a leading `/`. -/
def goPathClean (p : Str) : Str :=
  if p = [] then bs "."
  else
    let rooted := p.headD 0 = 47
    let parts := p.splitOn 47
    let stack := parts.foldl
      (fun (st : List Str) part =>
        if part = [] ∨ part = bs "." then st
        else if part = bs ".." then
          if st ≠ [] ∧ st.getLastD [] ≠ bs ".." then st.dropLast
          else if rooted then st
          else st ++ [part]
        else st ++ [part])
      []
    let body := (stack.intersperse (bs "/")).flatten
    if rooted then (if body = [] then [47] else 47 :: body)
    else (if body = [] then bs "." else body)

/-- Mirrors `filepath.Join(a, b)` on Unix: empty elements are skipped, the
rest are joined with `/` and cleaned. -/
def goFilepathJoin (a b : Str) : Str :=
  if a = [] ∧ b = [] then []
  else if a = [] then goPathClean b
  else if b = [] then goPathClean a
  else goPathClean (a ++ 47 :: b)

/-- Mirrors `filepath.Dir`: everything before the final path element,
cleaned (`.` when there is no slash). -/
def goFilepathDir (path : Str) : Str :=
  let sufLen := (path.reverse.takeWhile (fun c => c ≠ 47)).length
  goPathClean (path.take (path.length - sufLen))

/-! ## `path.Match`

The shell-glob matcher the query engine delegates to.  It is a collaborator
from the Go standard library, embedded from its source; rune decoding is
modelled bytewise, which coincides with Go on ASCII patterns and names (all
patterns evaluated concretely here are ASCII). -/

/-- The chunk scanner of `path.scanChunk` after the leading stars: returns
the chunk up to the next top-level `*` and the remaining pattern. -/
def scanChunkAux : Str → Bool → Str × Str
  | [], _ => ([], [])
  | c :: rest, inrange =>
    if c = 92 then
      match rest with
      | [] => ([92], [])
      | d :: rest' =>
        let r := scanChunkAux rest' inrange
        (92 :: d :: r.1, r.2)
    else if c = 91 then
      let r := scanChunkAux rest true
      (91 :: r.1, r.2)
    else if c = 93 then
      let r := scanChunkAux rest false
      (93 :: r.1, r.2)
    else if c = 42 ∧ ¬inrange then ([], c :: rest)
    else
      let r := scanChunkAux rest inrange
      (c :: r.1, r.2)

/-- Mirrors `path.scanChunk`. -/
def scanChunk (pattern : Str) : Bool × Str × Str :=
  let rest0 := pattern.dropWhile (fun c => c = 42)
  let star := rest0.length ≠ pattern.length
  let r := scanChunkAux rest0 false
  (star, r.1, r.2)

/-- Mirrors `path.getEsc`: one (possibly escaped) class character.
`Except Unit` stands for `ErrBadPattern`. -/
def getEsc (chunk : Str) : Except Unit (Nat × Str) :=
  match chunk with
  | [] => .error ()
  | c :: rest =>
    if c = 45 ∨ c = 93 then .error ()
    else if c = 92 then
      match rest with
      | [] => .error ()
      | d :: rest' => if rest' = [] then .error () else .ok (d, rest')
    else if rest = [] then .error () else .ok (c, rest)

/-- The range-parsing loop inside `path.matchChunk`'s `[` case.  Every
iteration consumes at least one chunk byte through `getEsc`, so fuel
`|chunk| + 1` always suffices; the fuel-zero branch is unreachable. -/
def parseRanges : Nat → Str → Nat → Bool → Nat → Except Unit (Str × Bool)
  | 0, _, _, _, _ => .error ()
  | f+1, chunk, r, matched, nrange =>
    if chunk ≠ [] ∧ chunk.headD 0 = 93 ∧ 0 < nrange then .ok (chunk.tail, matched)
    else
      match getEsc chunk with
      | .error _ => .error ()
      | .ok (lo, ch1) =>
        match (if ch1.headD 0 = 45 then
                 match getEsc ch1.tail with
                 | .error _ => Except.error ()
                 | .ok (hi, ch2) => Except.ok (hi, ch2)
               else Except.ok (lo, ch1)) with
        | .error _ => .error ()
        | .ok (hi, ch2) =>
          parseRanges f ch2 r (matched ∨ (lo ≤ r ∧ r ≤ hi)) (nrange + 1)

/-- The loop of `path.matchChunk`, with the `failed` flag: after a failure
the chunk is still parsed for well-formedness but the name is no longer
consumed.  `some rest` is a match leaving `rest`; `none` is a clean
non-match.  Fuel `|chunk| + 1` always suffices. -/
def matchChunkAux : Nat → Str → Str → Bool → Except Unit (Option Str)
  | _, [], s, failed => if failed then .ok none else .ok (some s)
  | 0, _ :: _, _, _ => .error ()
  | f+1, c :: ch, s, failed0 =>
    let failed := failed0 ∨ s = []
    if c = 91 then
      let r := if ¬ failed then s.headD 0 else 0
      let s' := if ¬ failed then s.tail else s
      let negated := ch.headD 0 = 94
      let ch1 := if negated then ch.tail else ch
      match parseRanges (ch1.length + 1) ch1 r false 0 with
      | .error _ => .error ()
      | .ok (ch2, isMatch) =>
        matchChunkAux f ch2 s' (failed ∨ (isMatch = negated))
    else if c = 63 then
      let failed' := failed ∨ (¬ failed ∧ s.headD 0 = 47)
      let s' := if ¬ failed then s.tail else s
      matchChunkAux f ch s' failed'
    else if c = 92 then
      match ch with
      | [] => .error ()
      | d :: ch' =>
        let failed' := failed ∨ (¬ failed ∧ d ≠ s.headD 0)
        let s' := if ¬ failed then s.tail else s
        matchChunkAux f ch' s' failed'
    else
      let failed' := failed ∨ (¬ failed ∧ c ≠ s.headD 0)
      let s' := if ¬ failed then s.tail else s
      matchChunkAux f ch s' failed'

/-- Mirrors `path.matchChunk`. -/
def matchChunk (chunk s : Str) : Except Unit (Option Str) :=
  matchChunkAux (chunk.length + 1) chunk s false

/-- The star back-off search of `path.Match`: skip one name byte at a time
(never across `/`) and retry the chunk.  `lastChunk` is `len(pattern)==0`;
a match that would leave a non-empty rest is then rejected and the search
continues.  Fuel `|s| + 1` always suffices. -/
def starSearchAux : Nat → Str → Str → Bool → Except Unit (Option Str)
  | 0, _, _, _ => .ok none
  | f+1, chunk, s, lastChunk =>
    match s with
    | [] => .ok none
    | c :: s' =>
      if c = 47 then .ok none
      else
        match matchChunk chunk s' with
        | .error _ => .error ()
        | .ok (some t) =>
          if lastChunk ∧ t ≠ [] then starSearchAux f chunk s' lastChunk
          else .ok (some t)
        | .ok none => starSearchAux f chunk s' lastChunk

/-- The outer pattern loop of `path.Match`.  Every iteration consumes at
least one pattern byte, so fuel `|pattern| + 1` always suffices. -/
def goMatchAux : Nat → Str → Str → Except Unit Bool
  | _, [], name => .ok (name = [])
  | 0, _ :: _, _ => .error ()
  | f+1, p0 :: prest, name =>
    let sc := scanChunk (p0 :: prest)
    let star := sc.1
    let chunk := sc.2.1
    let rest := sc.2.2
    if star ∧ chunk = [] then .ok (!goStrContains name (bs "/"))
    else
      let viaStar : Except Unit Bool :=
        if star then
          match starSearchAux (name.length + 1) chunk name (rest = []) with
          | .error _ => .error ()
          | .ok (some t) => goMatchAux f rest t
          | .ok none => .ok false
        else .ok false
      match matchChunk chunk name with
      | .ok (some t) =>
        if t = [] ∨ rest ≠ [] then goMatchAux f rest t else viaStar
      | .ok none => viaStar
      | .error _ => .error ()

/-- Mirrors `path.Match`; `none` is `ErrBadPattern`. -/
def goPathMatch (pattern name : Str) : Option Bool :=
  match goMatchAux (pattern.length + 1) pattern name with
  | .ok b => some b
  | .error _ => none

/-! ## internal/repo -/

namespace Repo

/-- Mirrors `repo.Package`. -/
structure Package where
  name : Str
  version : Str
  architecture : Str
  description : Str
  filename : Str
  size : Str
  feed : Config.Feed
  raw : Format.Paragraph
deriving DecidableEq

/-- Mirrors `repo.Index`.  The `Updated` wall-clock timestamp is omitted:
nothing in the core reads it. -/
structure Index where
  feed : Config.Feed
  packages : List (Str × Package)
deriving DecidableEq

/-- A filesystem write operation, recorded instead of performed. -/
inductive FsOp where
  | write (path : Str) (data : Str)
  | rename (src dst : Str)
  | mkdirAll (path : Str)
deriving DecidableEq

/-- The index-building loop of `fetchFeed`: paragraphs with an empty
`Package` field are skipped, repeated names are last-writer-wins. -/
def buildIndex (feed : Config.Feed) (paras : List Format.Paragraph) : List (Str × Package) :=
  paras.foldl
    (fun m p =>
      let name := p.Value (bs "Package")
      if name = [] then m
      else mapInsert m name
        { name := name
          version := p.Value (bs "Version")
          architecture := p.Value (bs "Architecture")
          description := p.Value (bs "Description")
          filename := p.Value (bs "Filename")
          size := p.Value (bs "Size")
          feed := feed
          raw := p })
    []

/-- Mirrors `repo.fetchFeed`.  `getBytes` is the downloader collaborator
(`Client.GetBytes` per URL) and `gunzip` the `compress/gzip` collaborator;
both are passed as oracles.  The cache write is recorded as an `FsOp` trace
(`osWriteFile` is `os.WriteFile`; its possible I/O failure is not modelled —
it would only substitute one feed failure for another). -/
def fetchFeed (getBytes : Str → Except GoErr Str) (gunzip : Str → Except GoErr Str)
    (feed : Config.Feed) (cacheDir : Str) : Except GoErr (Index × List FsOp) :=
  if feed.uri = [] then .error (.emptyFeedURI feed.name)
  else
    let base := trimOneSuffix feed.uri (bs "/")
    let fetched :=
      match getBytes (base ++ bs "/Packages.gz") with
      | .ok d => Except.ok d
      | .error _ => getBytes (base ++ bs "/Packages")
    match fetched with
    | .error e => .error (.fetchFeedErr feed.name e)
    | .ok rawBytes =>
      let unz : Except GoErr Str :=
        if rawBytes.take 2 = [31, 139] then
          match gunzip rawBytes with
          | .error e => .error (.decompressErr feed.name e)
          | .ok d => .ok d
        else .ok rawBytes
      match unz with
      | .error e => .error e
      | .ok data =>
        match Format.parseControl data with
        | .error e => .error (.parseFeedErr feed.name e)
        | .ok paras =>
          let idx : Index := { feed := feed, packages := buildIndex feed paras }
          if cacheDir ≠ [] then
            .ok (idx, [FsOp.write (goFilepathJoin cacheDir (feed.name ++ bs ".Packages")) data])
          else .ok (idx, [])

/-- Mirrors the goroutine collection of `repo.Update`: `arrivals` is the
per-feed `fetchFeed` outcome sequence in goroutine completion order (the
mutex serialises the appends, so the shared state evolves exactly by this
fold); only the first error is recorded, successes are appended in arrival
order, and any recorded error discards all of them. -/
def repoUpdate (arrivals : List (Except GoErr Index)) : Except GoErr (List Index) :=
  let st := arrivals.foldl
    (fun (acc : List Index × Option GoErr) r =>
      match r with
      | .error e =>
        (acc.1, match acc.2 with
                | none => some e
                | some e0 => some e0)
      | .ok idx => (acc.1 ++ [idx], acc.2))
    ([], none)
  match st.2 with
  | some e => .error e
  | none => .ok st.1

/-- The first error among the arrival outcomes, used to state the failure
policy of `repo.Update`. -/
def firstFeedError (arrivals : List (Except GoErr Index)) : Option GoErr :=
  arrivals.findSome? (fun r => match r with | .error e => some e | .ok _ => none)

/-- Mirrors `IndexSet.Find`: first index in stored order wins. -/
def indexSetFind (idxs : List Index) (name : Str) : Option Package :=
  match idxs with
  | [] => none
  | idx :: rest =>
    match mapLookup idx.packages name with
    | some p => some p
    | none => indexSetFind rest name

/-- Mirrors `IndexSet.All`: flatten the per-feed package maps in stored
index order (within one index, in the association-list order standing in
for Go's unspecified map iteration order; every consumer that is sensitive
to it sorts by name). -/
def indexSetAll (idxs : List Index) : List Package :=
  (idxs.map (fun i => i.packages.map (·.2))).flatten

end Repo

/-! ## internal/downloader -/

/-- Mirrors `Client.DownloadToFile` as a filesystem trace: create the
parent directories, write `path + ".tmp"`, rename it onto `path`. -/
def downloadToFile (getBytes : Str → Except GoErr Str) (url path : Str) :
    Except GoErr (List Repo.FsOp) :=
  match getBytes url with
  | .error e => .error e
  | .ok data =>
    .ok [Repo.FsOp.mkdirAll (goFilepathDir path),
         Repo.FsOp.write (path ++ bs ".tmp") data,
         Repo.FsOp.rename (path ++ bs ".tmp") path]

/-- The temp-file-plus-rename discipline as the specification describes it
("write to path + \".tmp\", then rename to path"); the spec-side reference
the cache write of C6 is compared against. -/
def atomicWriteOps (path data : Str) : List Repo.FsOp :=
  [Repo.FsOp.write (path ++ bs ".tmp") data, Repo.FsOp.rename (path ++ bs ".tmp") path]

/-! ## internal/pkgdb -/

namespace Pkgdb

/-- Mirrors `pkgdb.Entry`. -/
structure Entry where
  name : Str
  version : Str
  architecture : Str
  status : Str
  raw : Format.Paragraph
deriving DecidableEq

/-- The `byName` map of `pkgdb.Status`, as an association list. -/
abbrev StatusDB := List (Str × Entry)

/-- Mirrors `Status.Entries`: all entries sorted ascending by name (the Go
code sorts the map values with `Name < Name`; names are unique map keys, so
the sorted result is unique). -/
def statusEntries (db : StatusDB) : List Entry :=
  sortLe (fun x y => Version.goStrLess x.name y.name || x.name == y.name) (db.map (·.2))

/-- Mirrors `Status.Installed`: an entry exists and its `Status` value
contains the literal substring `installed`. -/
def statusInstalled (db : StatusDB) (name : Str) : Bool :=
  match mapLookup db name with
  | some e => goStrContains e.status (bs "installed")
  | none => false

end Pkgdb

/-! ## internal/pkgmgr: the façade and the query engine -/

namespace Pkgmgr

/-- Mirrors `pkgmgr.Manager`.

Modelled from the spec: the `indexesLoaded` flag.  The src tree's `Manager`
struct predates `ensureIndexesLoaded`, which reads `m.indexesLoaded`, and
no code under src declares or assigns the field; per the spec, the flag is
false until the first successful `update` sets it true and "is true until
the façade is discarded; there is no invalidation". -/
structure Manager where
  cfg : Config.Config
  status : Pkgdb.StatusDB
  indexes : List Repo.Index
  indexesLoaded : Bool
  cache : Str
deriving DecidableEq

/-- Mirrors the state `pkgmgr.New` returns (the config, status and cache
values are produced by filesystem I/O that is passed in already loaded):
no indexes, and the `indexesLoaded` zero value `false`. -/
def newManager (cfg : Config.Config) (status : Pkgdb.StatusDB) (cache : Str) : Manager :=
  { cfg := cfg, status := status, indexes := [], indexesLoaded := false, cache := cache }

/-- Mirrors `Manager.Update` over the arrival-ordered feed outcomes: a
`repo.Update` error is returned with the manager untouched; on success the
index set is replaced.  Modelled from the spec: setting `indexesLoaded` on
success (see `Manager`). -/
def managerUpdate (m : Manager) (arrivals : List (Except GoErr Repo.Index)) :
    Manager × Option GoErr :=
  match Repo.repoUpdate arrivals with
  | .error e => (m, some e)
  | .ok idxs => ({ m with indexes := idxs, indexesLoaded := true }, none)

/-- Mirrors `Manager.ensureIndexesLoaded`. -/
def ensureIndexesLoaded (m : Manager) : Option GoErr :=
  if m.indexesLoaded then none else some GoErr.indexesNotLoaded

/-- Mirrors `matchesAny`: an empty pattern list matches everything, and a
`path.Match` error counts as a non-match. -/
def matchesAny (name : Str) (patterns : List Str) : Bool :=
  patterns.isEmpty || patterns.any (fun pat => goPathMatch pat name == some true)

/-- Mirrors `firstLine`. -/
def firstLine (text : Str) : Str := text.takeWhile (fun b => b ≠ 10)

/-- Mirrors `strings.ReplaceAll(desc, "\n", " ")`. -/
def replaceNlSpace (text : Str) : Str := text.map (fun b => if b = 10 then 32 else b)

/-- Mirrors `pkgmgr.ListOptions`. -/
structure ListOptions where
  installedOnly : Bool
  patterns : List Str
  shortDescription : Bool
  includeSize : Bool

/-- Mirrors `pkgmgr.UpgradeCandidate`. -/
structure UpgradeCandidate where
  name : Str
  installed : Str
  available : Str
  description : Str
deriving DecidableEq

/-- Mirrors `Manager.listInstalled`. -/
def listInstalled (m : Manager) (opts : ListOptions) : List Str :=
  (Pkgdb.statusEntries m.status).foldl
    (fun lines entry =>
      if !matchesAny entry.name opts.patterns then lines
      else
        let desc0 := entry.raw.Value (bs "Description")
        let desc1 := if opts.shortDescription then firstLine desc0 else replaceNlSpace desc0
        let desc := if desc1 = [] then bs "(no description)" else desc1
        if opts.includeSize ∧ entry.raw.Value (bs "Installed-Size") ≠ [] then
          lines ++ [entry.name ++ bs " - " ++ desc ++ bs " (" ++
                    entry.raw.Value (bs "Installed-Size") ++ bs ")"]
        else lines ++ [entry.name ++ bs " - " ++ desc])
    []

/-- Mirrors `Manager.ListPackages`. -/
def listPackages (m : Manager) (opts : ListOptions) : Except GoErr (List Str) :=
  if opts.installedOnly then .ok (listInstalled m opts)
  else
    match ensureIndexesLoaded m with
    | some e => .error e
    | none =>
      let pkgs := sortLe (fun x y => Version.goStrLess x.name y.name || x.name == y.name)
        (Repo.indexSetAll m.indexes)
      .ok (pkgs.foldl
        (fun lines pkg =>
          if !matchesAny pkg.name opts.patterns then lines
          else
            let desc1 := if opts.shortDescription then firstLine pkg.description
                         else replaceNlSpace pkg.description
            let desc := if desc1 = [] then bs "(no description)" else desc1
            let inst := if Pkgdb.statusInstalled m.status pkg.name then bs " [installed]" else []
            if opts.includeSize ∧ pkg.size ≠ [] then
              lines ++ [pkg.name ++ bs " - " ++ desc ++ inst ++ bs " (" ++ pkg.size ++ bs ")"]
            else lines ++ [pkg.name ++ bs " - " ++ desc ++ inst])
        [])

/-- Mirrors `Manager.ListUpgradable`: over the sorted status entries, keep
those matching the patterns whose name `Find`s an index package with a
strictly newer version.  (The loop never consults `Status.Installed`.) -/
def listUpgradable (m : Manager) (patterns : List Str) :
    Except GoErr (List UpgradeCandidate) :=
  match ensureIndexesLoaded m with
  | some e => .error e
  | none =>
    let cands := (Pkgdb.statusEntries m.status).foldl
      (fun cs entry =>
        if !matchesAny entry.name patterns then cs
        else
          match Repo.indexSetFind m.indexes entry.name with
          | none => cs
          | some pkg =>
            if 0 ≤ Version.Compare entry.version pkg.version then cs
            else cs ++ [{ name := entry.name, installed := entry.version,
                          available := pkg.version,
                          description := firstLine pkg.description }])
      []
    .ok (sortLe (fun x y => Version.goStrLess x.name y.name || x.name == y.name) cands)

/-- Mirrors `Manager.FindPackages` (`strings.ToLower` modelled on ASCII). -/
def findPackages (m : Manager) (pattern : Str) : Except GoErr (List Repo.Package) :=
  match ensureIndexesLoaded m with
  | some e => .error e
  | none =>
    let pat := pattern.map asciiLower
    let found := (Repo.indexSetAll m.indexes).filter
      (fun pkg => goStrContains (pkg.name.map asciiLower) pat ||
                  goStrContains (pkg.description.map asciiLower) pat)
    .ok (sortLe (fun x y => Version.goStrLess x.name y.name || x.name == y.name) found)

/-- Mirrors `Manager.InfoParagraphs`: matching index paragraphs first, then
matching status entries not already covered by an index package name. -/
def infoParagraphs (m : Manager) (patterns : List Str) :
    Except GoErr (List Format.Paragraph) :=
  match ensureIndexesLoaded m with
  | some e => .error e
  | none =>
    let fromIdx := (Repo.indexSetAll m.indexes).foldl
      (fun (acc : List Format.Paragraph × List Str) pkg =>
        if matchesAny pkg.name patterns then (acc.1 ++ [pkg.raw], acc.2 ++ [pkg.name])
        else acc)
      ([], [])
    .ok ((Pkgdb.statusEntries m.status).foldl
      (fun ps entry =>
        if fromIdx.2.contains entry.name then ps
        else if matchesAny entry.name patterns then ps ++ [entry.raw]
        else ps)
      fromIdx.1)

/-- Mirrors `tokensFromRelations`: split clauses on `,`, alternatives on
`|`, cut each alternative at the first of `" (<>="` and trim. -/
def tokensFromRelations (field : Str) : List Str :=
  (field.splitOn 44).foldl
    (fun result clause =>
      let clause := trimSpace clause
      if clause = [] then result
      else (clause.splitOn 124).foldl
        (fun result part =>
          let part := trimSpace part
          if part = [] then result
          else
            let run := part.takeWhile (fun c => ¬ (c = 32 ∨ c = 40 ∨ c = 60 ∨ c = 62 ∨ c = 61))
            let name := if run.length = part.length then part else trimSpace run
            result ++ [name])
        result)
    []

/-- Mirrors `relationMatches`. -/
def relationMatches (field pattern : Str) : Bool :=
  if field = [] then false
  else (tokensFromRelations field).any (fun token => goPathMatch pattern token == some true)

/-- Mirrors `filterInstalled`. -/
def filterInstalled (pkgs : List Repo.Package) (db : Pkgdb.StatusDB) : List Repo.Package :=
  pkgs.filter (fun p => Pkgdb.statusInstalled db p.name)

/-- Mirrors `appendMissingInstalled`: add a pseudo-package (zero-valued
feed, empty filename and size) for every status entry whose name is not
among the given packages. -/
def appendMissingInstalled (pkgs : List Repo.Package) (db : Pkgdb.StatusDB) :
    List Repo.Package :=
  let seen := pkgs.map (·.name)
  pkgs ++ (Pkgdb.statusEntries db).foldl
    (fun acc entry =>
      if seen.contains entry.name then acc
      else acc ++ [{ name := entry.name, version := entry.version, architecture := [],
                     description := entry.raw.Value (bs "Description"), filename := [],
                     size := [], feed := { name := [], uri := [], kind := [] },
                     raw := entry.raw }])
    []

/-- Mirrors `pkgmgr.ReverseDependencyQuery`. -/
structure ReverseDependencyQuery where
  field : Str
  includeAll : Bool
  recursive : Bool
  patterns : List Str

/-- The inner universe scan of `ReverseDependencies` for one target:
returns the grown matched-name list and the names enqueued (in universe
order, exactly the newly matched ones). -/
def rdScan (field target : Str) : List Repo.Package → List Str → List Str × List Str
  | [], matched => (matched, [])
  | pkg :: rest, matched =>
    if matched.contains pkg.name then rdScan field target rest matched
    else if relationMatches (pkg.raw.Value field) target then
      let r := rdScan field target rest (matched ++ [pkg.name])
      (r.1, pkg.name :: r.2)
    else rdScan field target rest matched

/-- The queue loop of `ReverseDependencies`.  Each pop either skips a seen
target or marks it seen; a name is enqueued only when it first enters the
matched set, so the total number of pops is bounded by the initial queue
plus the universe size — the fuel `reverseDependencies` passes.  The
fuel-zero branch is therefore unreachable. -/
def rdLoop (field : Str) (univ : List Repo.Package) (recursive : Bool) :
    Nat → List Str → List Str → List Str → List Str
  | 0, _, _, matched => matched
  | f+1, queue, seen, matched =>
    match queue with
    | [] => matched
    | target :: qs =>
      if seen.contains target then rdLoop field univ recursive f qs seen matched
      else
        let r := rdScan field target univ matched
        rdLoop field univ recursive f
          (qs ++ (if recursive then r.2 else []))
          (seen ++ [target]) r.1

/-- Mirrors `Manager.ReverseDependencies`. -/
def reverseDependencies (m : Manager) (q : ReverseDependencyQuery) :
    Except GoErr (List Str) :=
  match ensureIndexesLoaded m with
  | some e => .error e
  | none =>
    if q.patterns = [] then .error GoErr.atLeastOnePattern
    else
      let univ :=
        if q.includeAll then appendMissingInstalled (Repo.indexSetAll m.indexes) m.status
        else appendMissingInstalled (filterInstalled (Repo.indexSetAll m.indexes) m.status)
               m.status
      let matched := rdLoop q.field univ q.recursive
        (q.patterns.length + univ.length + 1) q.patterns [] []
      .ok (sortLe (fun a b => Version.goStrLess a b || a == b) matched)

/-- Mirrors `dependenciesFromParagraph` (the Go map result modelled as an
association list in the field order of the source's slice literal). -/
def dependenciesFromParagraph (p : Format.Paragraph) : List (Str × List Str) :=
  [bs "Depends", bs "Pre-Depends", bs "Recommends", bs "Suggests", bs "Provides",
   bs "Conflicts", bs "Replaces"].foldl
    (fun result field =>
      let v := p.Value field
      if v ≠ [] then result ++ [(field, tokensFromRelations v)] else result)
    []

/-- Mirrors `Manager.Dependencies`. -/
def dependencies (m : Manager) (name : Str) : Except GoErr (List (Str × List Str)) :=
  match ensureIndexesLoaded m with
  | some e => .error e
  | none =>
    match Repo.indexSetFind m.indexes name with
    | some pkg => .ok (dependenciesFromParagraph pkg.raw)
    | none =>
      match mapLookup m.status name with
      | some entry => .ok (dependenciesFromParagraph entry.raw)
      | none => .error (.packageNotFound name)

end Pkgmgr

/-! ## config: status path and cache dir (defined after path helpers) -/

namespace Config

/-- Mirrors `Config.StatusPath`: `options["status"]` if set, else the
`root` destination joined with `usr/lib/opkg/status`, else an error. -/
def StatusPath (c : Config) : Except GoErr Str :=
  let path := FindOption c (bs "status") []
  if path ≠ [] then .ok path
  else
    match c.destinations.find? (fun d => d.name == bs "root") with
    | some d => .ok (goFilepathJoin d.path (bs "usr/lib/opkg/status"))
    | none => .error .statusPathNotConfigured

/-- Mirrors `Config.CacheDir`. -/
def CacheDir (c : Config) : Str :=
  let cache := FindOption c (bs "cache_dir") []
  if cache ≠ [] then cache
  else
    let tmp := FindOption c (bs "tmp_dir") []
    if tmp ≠ [] then tmp else bs "/tmp"

end Config

/-! ## Concrete fixtures

Small concrete feeds, packages, status entries and managers used to
evaluate the embedded operations on explicit inputs. -/

namespace Fix

/-- Two declared feeds. -/
def f1 : Config.Feed := { name := bs "feed1", uri := bs "http://h/f1", kind := bs "src/gz" }

/-- Second declared feed. -/
def f2 : Config.Feed := { name := bs "feed2", uri := bs "http://h/f2", kind := bs "src/gz" }

/-- A paragraph from string pairs. -/
def paraOf (kvs : List (String × String)) : Format.Paragraph :=
  ⟨kvs.map (fun kv => (bs kv.1, bs kv.2))⟩

/-- An index package with the given relations in its raw paragraph. -/
def pkgOf (feed : Config.Feed) (name ver desc : String)
    (deps : List (String × String)) : Repo.Package :=
  { name := bs name, version := bs ver, architecture := [], description := bs desc,
    filename := [], size := [], feed := feed,
    raw := paraOf ([("Package", name), ("Version", ver)] ++ deps) }

/-- A status entry with the given `Status` value and relations. -/
def entryOf (name ver status : String) (deps : List (String × String)) : Pkgdb.Entry :=
  { name := bs name, version := bs ver, architecture := [], status := bs status,
    raw := paraOf ([("Package", name), ("Version", ver), ("Status", status)] ++ deps) }

/-- Status database for the upgrade scenario: `foo` is present but its
`Status` does not contain `installed`. -/
def st7 : Pkgdb.StatusDB := [(bs "foo", entryOf "foo" "1.0" "deinstall ok config-files" [])]

/-- Index offering a newer `foo`. -/
def idx7 : Repo.Index :=
  { feed := f1, packages := [(bs "foo", pkgOf f1 "foo" "2.0" "a tool" [])] }

/-- Manager for the upgrade scenario, indexes loaded. -/
def m7 : Pkgmgr.Manager :=
  { cfg := Config.emptyConfig, status := st7, indexes := [idx7],
    indexesLoaded := true, cache := bs "/tmp" }

/-- Reverse-dependency scenario: `A` depends on `B`, `B` on `C`, `D` on `A`. -/
def pA : Repo.Package := pkgOf f1 "A" "1" "a" [("Depends", "B")]

/-- Package `B`, depending on `C`. -/
def pB : Repo.Package := pkgOf f1 "B" "1" "b" [("Depends", "C")]

/-- Package `C`, no relations. -/
def pC : Repo.Package := pkgOf f1 "C" "1" "c" []

/-- Package `D`, depending on `A`. -/
def pD : Repo.Package := pkgOf f1 "D" "1" "d" [("Depends", "A")]

/-- All four packages installed. -/
def st8 : Pkgdb.StatusDB :=
  [(bs "A", entryOf "A" "1" "install ok installed" []),
   (bs "B", entryOf "B" "1" "install ok installed" []),
   (bs "C", entryOf "C" "1" "install ok installed" []),
   (bs "D", entryOf "D" "1" "install ok installed" [])]

/-- Index holding the four packages. -/
def idx8 : Repo.Index :=
  { feed := f1, packages := [(bs "A", pA), (bs "B", pB), (bs "C", pC), (bs "D", pD)] }

/-- Manager for the reverse-dependency scenario, indexes loaded. -/
def m8 : Pkgmgr.Manager :=
  { cfg := Config.emptyConfig, status := st8, indexes := [idx8],
    indexesLoaded := true, cache := bs "/tmp" }

/-- Package `p` as offered by feed 1. -/
def p1 : Repo.Package := pkgOf f1 "p" "1" "x" []

/-- Package `p` as offered by feed 2. -/
def p2 : Repo.Package := pkgOf f2 "p" "2" "y" []

/-- Feed-1 index defining `p`. -/
def i1 : Repo.Index := { feed := f1, packages := [(bs "p", p1)] }

/-- Feed-2 index also defining `p`. -/
def i2 : Repo.Index := { feed := f2, packages := [(bs "p", p2)] }

/-- Fresh manager declaring `f1` before `f2`, indexes not loaded. -/
def m0 : Pkgmgr.Manager :=
  { cfg := { Config.emptyConfig with feeds := [f1, f2] }, status := [], indexes := [],
    indexesLoaded := false, cache := bs "/tmp" }

/-- A downloader oracle: the gzip URL of feed 1 is missing, the plain
`Packages` URL serves a one-package index. -/
def gb6 : Str → Except GoErr Str := fun url =>
  if url = bs "http://h/f1/Packages" then .ok (bs "Package: foo\nVersion: 1.0\n")
  else .error (GoErr.network (bs "404"))

/-- A gzip oracle (never reached by `gb6`'s plain responses). -/
def gz6 : Str → Except GoErr Str := fun d => .ok d

/-- A downloader oracle in which every URL fails. -/
def gbDown : Str → Except GoErr Str := fun _ => .error (GoErr.network (bs "down"))

end Fix

/-! ## Proof-layer definitions: comparator keys for the version order

`Compare` is shown to coincide with the comparison of explicit keys under
lexicographic orders; totality, reflexivity, antisymmetry and transitivity
then follow once and for all from the key picture. -/

namespace Version

/-- The laws of a comparator induced by a total preorder: reflexive,
antisymmetric under argument swap, valued in `{-1, 0, 1}`, and transitive
on the non-positive side (all other transitivity shapes follow). -/
structure IsCmp {α : Type _} (c : α → α → Int) : Prop where
  refl : ∀ a, c a a = 0
  flip : ∀ a b, c b a = -c a b
  range : ∀ a b, c a b = -1 ∨ c a b = 0 ∨ c a b = 1
  leTrans : ∀ a b d, c a b ≤ 0 → c b d ≤ 0 → c a d ≤ 0

/-- Three-way comparison on `Int`. -/
def cmpInt (x y : Int) : Int := if x < y then -1 else if y < x then 1 else 0

/-- Three-way comparison on `Nat`. -/
def cmpNat (x y : Nat) : Int := if x < y then -1 else if y < x then 1 else 0

/-- Lexicographic three-way comparison of byte lists, with a proper prefix
smaller — the comparator of Go's string order. -/
def lexBytes : Str → Str → Int
  | [], [] => 0
  | [], _ :: _ => -1
  | _ :: _, [] => 1
  | x :: xs, y :: ys => if x < y then -1 else if y < x then 1 else lexBytes xs ys

/-- Lexicographic composition of two comparators over pairs. -/
def cmpLex (c1 : α → α → Int) (c2 : β → β → Int) (p q : α × β) : Int :=
  let c := c1 p.1 q.1
  if c ≠ 0 then c else c2 p.2 q.2

/-- Pointwise comparison of two lists, the shorter one padded with `pad`. -/
def pCmp (step : α → α → Int) (pad : α) : List α → List α → Int
  | [], [] => 0
  | [], y :: ys =>
    let c := step pad y
    if c ≠ 0 then c else pCmp step pad [] ys
  | x :: xs, [] =>
    let c := step x pad
    if c ≠ 0 then c else pCmp step pad xs []
  | x :: xs, y :: ys =>
    let c := step x y
    if c ≠ 0 then c else pCmp step pad xs ys

/-- The weight-sequence key of `compareNonDigits`: weights of the bytes up
to (excluding) the first NUL; NUL and the end-of-string sentinel share
weight 0, which is why the sequence is cut there. -/
def nkey (s : Str) : List Int := (s.takeWhile (fun b => b ≠ 0)).map order

/-- The key of `compareDigits`: the digit run with leading zeros removed. -/
def dkey (s : Str) : Str := s.dropWhile (· == 48)

/-- The alternating non-digit/digit run decomposition of a part: exactly
the run pairs the `comparePart` loop consumes, in order. -/
def decomp (s : Str) : List (Str × Str) :=
  if h : s = [] then []
  else
    let n := leadingNonDigits s
    let r1 := s.drop n.length
    let d := leadingDigits r1
    (n, d) :: decomp (r1.drop d.length)
termination_by s.length
decreasing_by
  have hr : s.drop (leadingNonDigits s).length = s.dropWhile (fun b => !goIsDigit b) := by
    simp only [leadingNonDigits]
    nth_rewrite 2 [← List.takeWhile_append_dropWhile (fun b => !goIsDigit b) s]
    rw [List.drop_left]
  have hs0 : 0 < s.length := List.length_pos.mpr h
  have hr1 : (s.dropWhile (fun b => !goIsDigit b)).length ≤ s.length := by
    nth_rewrite 2 [← List.takeWhile_append_dropWhile (fun b => !goIsDigit b) s]
    rw [List.length_append]; omega
  simp only [hr, List.length_drop]
  cases hcase : s.dropWhile (fun b => !goIsDigit b) with
  | nil => simpa [hcase, leadingDigits] using hs0
  | cons c t =>
    have hpc : (!goIsDigit c) = false := by
      have := List.head_dropWhile_not (fun b => !goIsDigit b) s (by simp [hcase])
      simpa [hcase] using this
    have hdig : goIsDigit c = true := by simpa using hpc
    have hlen : 1 ≤ (leadingDigits (c :: t)).length := by
      simp [leadingDigits, List.takeWhile_cons, hdig]
    rw [hcase] at hr1
    have hfin : (c :: t).length - (leadingDigits (c :: t)).length < s.length := by
      simp only [List.length_cons] at hr1 ⊢
      omega
    exact hfin

/-- One decomposition chunk compared: non-digit runs first, then digit
runs — the body of one `comparePart` round. -/
def chunkStep : (Str × Str) → (Str × Str) → Int := cmpLex compareNonDigits compareDigits

/-- The whole-part comparator on decompositions. -/
def chunkCmp : List (Str × Str) → List (Str × Str) → Int := pCmp chunkStep ([], [])

/-- The key of `Compare`: epoch, upstream part, revision part. -/
def vkey (s : Str) : Int × Str × Str :=
  ((splitEpoch s).1, (splitRevision (splitEpoch s).2).1, (splitRevision (splitEpoch s).2).2)

/-- The comparator `Compare` factors through on version keys. -/
def vcmp : (Int × Str × Str) → (Int × Str × Str) → Int :=
  cmpLex cmpInt (cmpLex comparePart comparePart)

end Version

end OpkgGo

namespace OpkgGo

namespace Version

theorem IsCmp.eqTrans {α : Type _} {c : α → α → Int} (h : IsCmp c) {a b d : α}
    (h1 : c a b = 0) (h2 : c b d = 0) : c a d = 0 := by
  have hba : c b a = 0 := by rw [h.flip, h1]; rfl
  have hdb : c d b = 0 := by rw [h.flip, h2]; rfl
  have h3 : c a d ≤ 0 := h.leTrans a b d (le_of_eq h1) (le_of_eq h2)
  have h4 : c d a ≤ 0 := h.leTrans d b a (le_of_eq hdb) (le_of_eq hba)
  have h5 := h.flip a d
  omega

theorem IsCmp.ltL {α : Type _} {c : α → α → Int} (h : IsCmp c) {a b d : α}
    (h1 : c a b ≤ 0) (h2 : c b d < 0) : c a d < 0 := by
  by_contra hc
  push_neg at hc
  have hda : c d a ≤ 0 := by have := h.flip a d; omega
  have hdb : c d b ≤ 0 := h.leTrans d a b hda h1
  have := h.flip b d
  omega

theorem IsCmp.ltR {α : Type _} {c : α → α → Int} (h : IsCmp c) {a b d : α}
    (h1 : c a b < 0) (h2 : c b d ≤ 0) : c a d < 0 := by
  by_contra hc
  push_neg at hc
  have hda : c d a ≤ 0 := by have := h.flip a d; omega
  have hba : c b a ≤ 0 := h.leTrans b d a h2 hda
  have := h.flip a b
  omega

theorem IsCmp.ofEq {α : Type _} {c c' : α → α → Int} (he : ∀ a b, c a b = c' a b)
    (h : IsCmp c') : IsCmp c := by
  refine ⟨fun a => ?_, fun a b => ?_, fun a b => ?_, fun a b d => ?_⟩
  · rw [he]; exact h.refl a
  · rw [he, he]; exact h.flip a b
  · rw [he]; exact h.range a b
  · rw [he, he, he]; exact h.leTrans a b d

theorem IsCmp.comap {α β : Type _} {c : α → α → Int} (h : IsCmp c) (f : β → α) :
    IsCmp (fun x y => c (f x) (f y)) :=
  ⟨fun a => h.refl (f a), fun a b => h.flip (f a) (f b), fun a b => h.range (f a) (f b),
   fun a b d => h.leTrans (f a) (f b) (f d)⟩

theorem cmpInt_isCmp : IsCmp cmpInt := by
  refine ⟨fun a => ?_, fun a b => ?_, fun a b => ?_, fun a b d h1 h2 => ?_⟩
  · simp only [cmpInt]; split_ifs <;> omega
  · simp only [cmpInt]; split_ifs <;> omega
  · simp only [cmpInt]; split_ifs <;> omega
  · simp only [cmpInt] at h1 h2 ⊢; split_ifs at h1 h2 ⊢ <;> omega

theorem cmpNat_isCmp : IsCmp cmpNat := by
  refine ⟨fun a => ?_, fun a b => ?_, fun a b => ?_, fun a b d h1 h2 => ?_⟩
  · simp only [cmpNat]; split_ifs <;> omega
  · simp only [cmpNat]; split_ifs <;> omega
  · simp only [cmpNat]; split_ifs <;> omega
  · simp only [cmpNat] at h1 h2 ⊢; split_ifs at h1 h2 ⊢ <;> omega

theorem lexBytes_refl (a : Str) : lexBytes a a = 0 := by
  induction a with
  | nil => rfl
  | cons x xs ih => simp [lexBytes, ih]

theorem lexBytes_flip (a b : Str) : lexBytes b a = -lexBytes a b := by
  induction a generalizing b with
  | nil => cases b <;> simp [lexBytes]
  | cons x xs ih =>
    cases b with
    | nil => simp [lexBytes]
    | cons y ys =>
      simp only [lexBytes]
      split_ifs <;> first | omega | rw [ih]

theorem lexBytes_range (a b : Str) : lexBytes a b = -1 ∨ lexBytes a b = 0 ∨ lexBytes a b = 1 := by
  induction a generalizing b with
  | nil => cases b <;> simp [lexBytes]
  | cons x xs ih =>
    cases b with
    | nil => simp [lexBytes]
    | cons y ys =>
      simp only [lexBytes]
      split_ifs <;> simp [ih]

theorem lexBytes_leTrans (a b d : Str) (h1 : lexBytes a b ≤ 0) (h2 : lexBytes b d ≤ 0) :
    lexBytes a d ≤ 0 := by
  induction a generalizing b d with
  | nil => cases d <;> simp [lexBytes]
  | cons x xs ih =>
    cases b with
    | nil => simp [lexBytes] at h1
    | cons y ys =>
      cases d with
      | nil => simp [lexBytes] at h2
      | cons z zs =>
        simp only [lexBytes] at h1 h2 ⊢
        split_ifs at h1 h2 ⊢ <;> first | omega | exact ih ys zs (by omega) (by omega)

theorem lexBytes_isCmp : IsCmp lexBytes :=
  ⟨lexBytes_refl, lexBytes_flip, lexBytes_range, lexBytes_leTrans⟩

theorem cmpLex_isCmp {α β : Type _} {c1 : α → α → Int} {c2 : β → β → Int}
    (h1 : IsCmp c1) (h2 : IsCmp c2) : IsCmp (cmpLex c1 c2) := by
  refine ⟨fun a => ?_, fun a b => ?_, fun a b => ?_, fun a b d => ?_⟩
  · simp [cmpLex, h1.refl, h2.refl]
  · simp only [cmpLex]
    have hf := h1.flip a.1 b.1
    by_cases hz : c1 a.1 b.1 = 0
    · simp [hz, hf, h2.flip a.2 b.2]
    · have : c1 b.1 a.1 ≠ 0 := by omega
      simp [hz, this, hf]
  · simp only [cmpLex]
    by_cases hz : c1 a.1 b.1 = 0
    · simp [hz]; exact h2.range a.2 b.2
    · simp [hz]; rcases h1.range a.1 b.1 with h | h | h <;> simp [h] at hz ⊢
  · intro hab hbd
    simp only [cmpLex] at hab hbd ⊢
    by_cases hz1 : c1 a.1 b.1 = 0 <;> by_cases hz2 : c1 b.1 d.1 = 0
    · have hz3 : c1 a.1 d.1 = 0 := h1.eqTrans hz1 hz2
      rw [hz1] at hab
      rw [hz2] at hbd
      simp at hab hbd
      simp [hz3]
      exact h2.leTrans a.2 b.2 d.2 hab hbd
    · have hlt2 : c1 b.1 d.1 < 0 := by simp [hz2] at hbd; omega
      have hz3 : c1 a.1 d.1 < 0 := h1.ltL (le_of_eq hz1) hlt2
      have : c1 a.1 d.1 ≠ 0 := by omega
      simp [this]; omega
    · have hlt1 : c1 a.1 b.1 < 0 := by simp [hz1] at hab; omega
      have hz3 : c1 a.1 d.1 < 0 := h1.ltR hlt1 (le_of_eq hz2)
      have : c1 a.1 d.1 ≠ 0 := by omega
      simp [this]; omega
    · have hlt1 : c1 a.1 b.1 < 0 := by simp [hz1] at hab; omega
      have hlt2 : c1 b.1 d.1 < 0 := by simp [hz2] at hbd; omega
      have hz3 : c1 a.1 d.1 < 0 := h1.ltL (le_of_lt hlt1) hlt2
      have : c1 a.1 d.1 ≠ 0 := by omega
      simp [this]; omega

end Version

end OpkgGo

namespace OpkgGo

namespace Version

theorem pCmp_refl {α : Type _} {step : α → α → Int} {pad : α} (hs : IsCmp step) :
    ∀ x : List α, pCmp step pad x x = 0 := by
  intro x
  induction x with
  | nil => simp [pCmp]
  | cons a xs ih => simp [pCmp, hs.refl, ih]

theorem pCmp_flip {α : Type _} {step : α → α → Int} {pad : α} (hs : IsCmp step) :
    ∀ n (x y : List α), x.length + y.length ≤ n →
      pCmp step pad y x = -pCmp step pad x y := by
  intro n
  induction n with
  | zero =>
    intro x y hl
    have hx : x = [] := by cases x <;> simp_all
    have hy : y = [] := by cases y <;> simp_all
    subst hx; subst hy; simp [pCmp]
  | succ n ih =>
    intro x y hl
    match x, y with
    | [], [] => simp [pCmp]
    | [], b :: ys =>
      simp only [pCmp]
      have hf := hs.flip pad b
      by_cases hz : step pad b = 0
      · have hz' : step b pad = 0 := by omega
        simp only [hz, hz', ne_eq, not_true_eq_false, if_false]
        exact ih [] ys (by simp at hl ⊢; omega)
      · have hz' : step b pad ≠ 0 := by omega
        simp [hz, hz', hf]
    | a :: xs, [] =>
      simp only [pCmp]
      have hf := hs.flip a pad
      by_cases hz : step a pad = 0
      · have hz' : step pad a = 0 := by omega
        simp only [hz, hz', ne_eq, not_true_eq_false, if_false]
        exact ih xs [] (by simp at hl ⊢; omega)
      · have hz' : step pad a ≠ 0 := by omega
        simp [hz, hz', hf]
    | a :: xs, b :: ys =>
      simp only [pCmp]
      have hf := hs.flip a b
      by_cases hz : step a b = 0
      · have hz' : step b a = 0 := by omega
        simp only [hz, hz', ne_eq, not_true_eq_false, if_false]
        exact ih xs ys (by simp at hl ⊢; omega)
      · have hz' : step b a ≠ 0 := by omega
        simp [hz, hz', hf]

theorem pCmp_range {α : Type _} {step : α → α → Int} {pad : α} (hs : IsCmp step) :
    ∀ n (x y : List α), x.length + y.length ≤ n →
      pCmp step pad x y = -1 ∨ pCmp step pad x y = 0 ∨ pCmp step pad x y = 1 := by
  intro n
  induction n with
  | zero =>
    intro x y hl
    have hx : x = [] := by cases x <;> simp_all
    have hy : y = [] := by cases y <;> simp_all
    subst hx; subst hy; simp [pCmp]
  | succ n ih =>
    intro x y hl
    match x, y with
    | [], [] => simp [pCmp]
    | [], b :: ys =>
      simp only [pCmp]
      by_cases hz : step pad b = 0
      · simp only [hz, ne_eq, not_true_eq_false, if_false]
        exact ih [] ys (by simp at hl ⊢; omega)
      · simpa [hz] using hs.range pad b
    | a :: xs, [] =>
      simp only [pCmp]
      by_cases hz : step a pad = 0
      · simp only [hz, ne_eq, not_true_eq_false, if_false]
        exact ih xs [] (by simp at hl ⊢; omega)
      · simpa [hz] using hs.range a pad
    | a :: xs, b :: ys =>
      simp only [pCmp]
      by_cases hz : step a b = 0
      · simp only [hz, ne_eq, not_true_eq_false, if_false]
        exact ih xs ys (by simp at hl ⊢; omega)
      · simpa [hz] using hs.range a b

theorem pCmp_leTrans {α : Type _} {step : α → α → Int} {pad : α} (hs : IsCmp step) :
    ∀ n (x y z : List α), x.length + y.length + z.length ≤ n →
      pCmp step pad x y ≤ 0 → pCmp step pad y z ≤ 0 → pCmp step pad x z ≤ 0 := by
  intro n
  induction n with
  | zero =>
    intro x y z hl h1 h2
    have hx : x = [] := by cases x <;> simp_all
    have hz : z = [] := by cases z <;> simp_all
    subst hx; subst hz; simp [pCmp]
  | succ n ih =>
    intro x y z hl h1 h2
    have key : ∀ (hx hy hz : α) (tx ty tz : List α),
        tx.length + ty.length + tz.length + 1 ≤ n + 1 →
        (if step hx hy ≠ 0 then step hx hy else pCmp step pad tx ty) ≤ 0 →
        (if step hy hz ≠ 0 then step hy hz else pCmp step pad ty tz) ≤ 0 →
        (if step hx hz ≠ 0 then step hx hz else pCmp step pad tx tz) ≤ 0 := by
      intro hx hy hz tx ty tz hlen g1 g2
      by_cases e1 : step hx hy = 0 <;> by_cases e2 : step hy hz = 0
      · have e3 : step hx hz = 0 := hs.eqTrans e1 e2
        simp only [e1, ne_eq, not_true_eq_false, if_false] at g1
        simp only [e2, ne_eq, not_true_eq_false, if_false] at g2
        simp only [e3, ne_eq, not_true_eq_false, if_false]
        exact ih tx ty tz (by omega) g1 g2
      · have l2 : step hy hz < 0 := by simp [e2] at g2; omega
        have e3 : step hx hz < 0 := hs.ltL (le_of_eq e1) l2
        simp [show step hx hz ≠ 0 by omega]
        omega
      · have l1 : step hx hy < 0 := by simp [e1] at g1; omega
        have e3 : step hx hz < 0 := hs.ltR l1 (le_of_eq e2)
        simp [show step hx hz ≠ 0 by omega]
        omega
      · have l1 : step hx hy < 0 := by simp [e1] at g1; omega
        have l2 : step hy hz < 0 := by simp [e2] at g2; omega
        have e3 : step hx hz < 0 := hs.ltL (le_of_lt l1) l2
        simp [show step hx hz ≠ 0 by omega]
        omega
    match x, y, z with
    | [], [], z => exact h2
    | [], b :: ys, [] => simp [pCmp]
    | a :: xs, [], [] => exact h1
    | a :: xs, b :: ys, [] =>
      simp only [pCmp] at h1 h2 ⊢
      exact key a b pad xs ys [] (by simp at hl ⊢; omega) h1 h2
    | [], b :: ys, c :: zs =>
      simp only [pCmp] at h1 h2 ⊢
      exact key pad b c [] ys zs (by simp at hl ⊢; omega) h1 h2
    | a :: xs, [], c :: zs =>
      simp only [pCmp] at h1 h2 ⊢
      exact key a pad c xs [] zs (by simp at hl ⊢; omega) h1 h2
    | a :: xs, b :: ys, c :: zs =>
      simp only [pCmp] at h1 h2 ⊢
      exact key a b c xs ys zs (by simp at hl ⊢; omega) h1 h2

theorem pCmp_isCmp {α : Type _} {step : α → α → Int} {pad : α} (hs : IsCmp step) :
    IsCmp (pCmp step pad) :=
  ⟨pCmp_refl hs,
   fun a b => pCmp_flip hs (a.length + b.length) a b le_rfl,
   fun a b => pCmp_range hs (a.length + b.length) a b le_rfl,
   fun a b d => pCmp_leTrans hs (a.length + b.length + d.length) a b d le_rfl⟩

end Version

end OpkgGo

namespace OpkgGo

namespace Version

theorem order_zero : order 0 = 0 := by simp [order]

theorem order_ne_zero {r : Nat} (h : r ≠ 0) : order r ≠ 0 := by
  unfold order
  split_ifs with h0 h126 hdig hlet
  · exact absurd h0 h
  · decide
  · simp [goIsDigit] at hdig
    omega
  · omega
  · omega

theorem nkey_nil : nkey [] = [] := rfl

theorem nkey_cons_zero (t : Str) : nkey (0 :: t) = [] := by
  simp [nkey, List.takeWhile_cons]

theorem nkey_cons_ne {x : Nat} (t : Str) (h : x ≠ 0) :
    nkey (x :: t) = order x :: nkey t := by
  simp [nkey, List.takeWhile_cons, h]

theorem cndAux_eq : ∀ (f : Nat) (a b : Str), a.length ≤ f → b.length ≤ f →
    cndAux f a b = pCmp cmpInt 0 (nkey a) (nkey b) := by
  intro f
  induction f with
  | zero =>
    intro a b ha hb
    have ha' : a = [] := by cases a <;> simp_all
    have hb' : b = [] := by cases b <;> simp_all
    subst ha'; subst hb'
    simp [cndAux, pCmp, nkey_nil]
  | succ f ih =>
    intro a b ha hb
    match a, b with
    | [], [] => simp [cndAux, pCmp, nkey_nil, order_zero]
    | [], y :: ys =>
      by_cases hy : y = 0
      · subst hy
        simp [cndAux, pCmp, nkey_nil, nkey_cons_zero, order_zero]
      · have ho := order_ne_zero hy
        have hn := nkey_cons_ne ys hy
        simp only [cndAux, List.headD, order_zero, nkey_nil, hn, pCmp]
        by_cases hlt : (0 : Int) < order y
        · simp [hlt, cmpInt, show ¬ order y < 0 by omega]
        · have hgt : order y < 0 := by omega
          simp [hlt, hgt, cmpInt, show ¬ (0:Int) < order y by omega, hy]
    | x :: xs, [] =>
      by_cases hx : x = 0
      · subst hx
        simp [cndAux, pCmp, nkey_nil, nkey_cons_zero, order_zero]
      · have ho := order_ne_zero hx
        have hn := nkey_cons_ne xs hx
        simp only [cndAux, List.headD, order_zero, nkey_nil, hn, pCmp]
        by_cases hlt : order x < 0
        · simp [hlt, cmpInt, show ¬ (0:Int) < order x by omega]
        · have hgt : (0 : Int) < order x := by omega
          simp [hlt, hgt, cmpInt, hx]
    | x :: xs, y :: ys =>
      by_cases hx : x = 0 <;> by_cases hy : y = 0
      · subst hx; subst hy
        simp [cndAux, pCmp, nkey_cons_zero, order_zero]
      · subst hx
        have ho := order_ne_zero hy
        have hn := nkey_cons_ne ys hy
        simp only [cndAux, List.headD, order_zero, nkey_cons_zero, hn, pCmp]
        by_cases hlt : (0 : Int) < order y
        · simp [hlt, cmpInt, show ¬ order y < 0 by omega]
        · have hgt : order y < 0 := by omega
          simp [hlt, hgt, cmpInt, show ¬ (0:Int) < order y by omega, hy]
      · subst hy
        have ho := order_ne_zero hx
        have hn := nkey_cons_ne xs hx
        simp only [cndAux, List.headD, order_zero, nkey_cons_zero, hn, pCmp]
        by_cases hlt : order x < 0
        · simp [hlt, cmpInt, show ¬ (0:Int) < order x by omega, hx]
        · have hgt : (0 : Int) < order x := by omega
          simp [hlt, hgt, cmpInt, hx]
      · have hnx := nkey_cons_ne xs hx
        have hny := nkey_cons_ne ys hy
        simp only [cndAux, List.headD, hnx, hny, pCmp]
        by_cases hlt : order x < order y
        · simp [hlt, cmpInt]
        · by_cases hgt : order y < order x
          · simp [hlt, hgt, cmpInt]
          · have heq : order x = order y := by omega
            have hrec := ih xs ys (by simp at ha; omega) (by simp at hb; omega)
            simp [hlt, hgt, cmpInt, hx, hy, heq, hrec]

theorem compareNonDigits_eq (a b : Str) :
    compareNonDigits a b = pCmp cmpInt 0 (nkey a) (nkey b) := by
  exact cndAux_eq (max a.length b.length) a b (le_max_left _ _) (le_max_right _ _)

theorem compareNonDigits_isCmp : IsCmp compareNonDigits :=
  IsCmp.ofEq compareNonDigits_eq ((pCmp_isCmp cmpInt_isCmp).comap nkey)

end Version

end OpkgGo

namespace OpkgGo

namespace Version

theorem lexBytes_eq_zero_iff : ∀ x y : Str, lexBytes x y = 0 ↔ x = y := by
  intro x
  induction x with
  | nil => intro y; cases y <;> simp [lexBytes]
  | cons a xs ih =>
    intro y
    cases y with
    | nil => simp [lexBytes]
    | cons b ys =>
      simp only [lexBytes]
      split_ifs with h1 h2
      · simp; omega
      · simp; omega
      · have hab : a = b := by omega
        simp [hab, ih]

theorem goStrLess_iff_lexBytes : ∀ x y : Str, goStrLess x y = true ↔ lexBytes x y = -1 := by
  intro x
  induction x with
  | nil => intro y; cases y <;> simp [goStrLess, lexBytes]
  | cons a xs ih =>
    intro y
    cases y with
    | nil => simp [goStrLess, lexBytes]
    | cons b ys =>
      simp only [goStrLess, lexBytes]
      split_ifs with h1 h2
      · simp
      · simp
      · exact ih ys

theorem compareDigits_eq (a b : Str) :
    compareDigits a b =
      cmpLex cmpNat lexBytes ((dkey a).length, dkey a) ((dkey b).length, dkey b) := by
  simp only [compareDigits, cmpLex, dkey, cmpNat]
  set x := a.dropWhile (· == 48) with hx
  set y := b.dropWhile (· == 48) with hy
  by_cases h1 : x.length < y.length
  · rw [if_pos (show x.length ≠ y.length by omega), if_pos h1, if_pos h1]
    simp
  · by_cases h2 : y.length < x.length
    · rw [if_pos (show x.length ≠ y.length by omega), if_neg h1, if_neg h1, if_pos h2]
      simp
    · rw [if_neg (show ¬ x.length ≠ y.length by omega), if_neg h1, if_neg h2]
      rw [if_neg (show ¬ ((0 : Int) ≠ 0) by omega)]
      rw [← hx, ← hy]
      by_cases heq : x = y
      · rw [if_pos heq, heq, (lexBytes_eq_zero_iff y y).mpr rfl]
      · rcases lexBytes_range x y with h | h | h
        · rw [if_neg heq, if_pos ((goStrLess_iff_lexBytes x y).mpr h), h]
        · exact absurd ((lexBytes_eq_zero_iff x y).mp h) heq
        · have hless : ¬ goStrLess x y = true := by
            intro hc
            rw [(goStrLess_iff_lexBytes x y).mp hc] at h
            omega
          rw [if_neg heq, if_neg hless, h]

theorem compareDigits_isCmp : IsCmp compareDigits :=
  IsCmp.ofEq compareDigits_eq
    ((cmpLex_isCmp cmpNat_isCmp lexBytes_isCmp).comap (fun s => ((dkey s).length, dkey s)))

theorem chunkStep_isCmp : IsCmp chunkStep :=
  cmpLex_isCmp compareNonDigits_isCmp compareDigits_isCmp

theorem chunkCmp_isCmp : IsCmp chunkCmp := pCmp_isCmp chunkStep_isCmp

end Version

end OpkgGo

namespace OpkgGo

namespace Version

theorem drop_leadingNonDigits (s : Str) :
    s.drop (leadingNonDigits s).length = s.dropWhile (fun b => !goIsDigit b) := by
  simp only [leadingNonDigits]
  nth_rewrite 2 [← List.takeWhile_append_dropWhile (fun b => !goIsDigit b) s]
  rw [List.drop_left]

theorem lnd_drop (s : Str) :
    leadingNonDigits (s.drop (leadingNonDigits s).length) = [] := by
  rw [drop_leadingNonDigits]
  cases hcase : s.dropWhile (fun b => !goIsDigit b) with
  | nil => rfl
  | cons c t =>
    have hpc : (!goIsDigit c) = false := by
      have := List.head_dropWhile_not (fun b => !goIsDigit b) s (by simp [hcase])
      simpa [hcase] using this
    simp [leadingNonDigits, List.takeWhile_cons, hpc]

theorem digits_of_no_nondigits {a : Str} (h : a ≠ []) (h2 : leadingNonDigits a = []) :
    leadingDigits a ≠ [] := by
  cases a with
  | nil => exact absurd rfl h
  | cons c t =>
    by_cases hd : goIsDigit c
    · simp [leadingDigits, List.takeWhile_cons, hd]
    · simp [leadingNonDigits, List.takeWhile_cons, hd] at h2

theorem lnd_nil : leadingNonDigits [] = [] := rfl

theorem ld_nil : leadingDigits [] = [] := rfl

theorem decomp_nil : decomp [] = [] := by rw [decomp]; rfl

theorem decomp_cons {s : Str} (h : s ≠ []) :
    decomp s = (leadingNonDigits s,
      leadingDigits (s.drop (leadingNonDigits s).length)) ::
      decomp ((s.drop (leadingNonDigits s).length).drop
        (leadingDigits (s.drop (leadingNonDigits s).length)).length) := by
  rw [decomp]
  simp [h]

theorem compareNonDigits_nil_nil : compareNonDigits [] [] = 0 := by
  simp [compareNonDigits, cndAux]

theorem length_takeWhile_le (p : Nat → Bool) (s : Str) :
    (s.takeWhile p).length ≤ s.length :=
  (List.takeWhile_prefix p).length_le

theorem chunkStep_pad (x y : Str × Str) :
    chunkStep x y =
      (if compareNonDigits x.1 y.1 ≠ 0 then compareNonDigits x.1 y.1
       else compareDigits x.2 y.2) := rfl

end Version

end OpkgGo

namespace OpkgGo

namespace Version

theorem ite_nest (c1 c2 r : Int) :
    (if (if c1 ≠ 0 then c1 else c2) ≠ 0 then (if c1 ≠ 0 then c1 else c2) else r) =
      (if c1 ≠ 0 then c1 else if c2 ≠ 0 then c2 else r) := by
  by_cases h1 : c1 = 0 <;> by_cases h2 : c2 = 0 <;> simp [h1, h2]

theorem chunkCmp_unfold (a b : Str) (hab : ¬(a = [] ∧ b = [])) :
    chunkCmp (decomp a) (decomp b) =
      if compareNonDigits (leadingNonDigits a) (leadingNonDigits b) ≠ 0 then
        compareNonDigits (leadingNonDigits a) (leadingNonDigits b)
      else if compareDigits (leadingDigits (a.drop (leadingNonDigits a).length))
                 (leadingDigits (b.drop (leadingNonDigits b).length)) ≠ 0 then
        compareDigits (leadingDigits (a.drop (leadingNonDigits a).length))
          (leadingDigits (b.drop (leadingNonDigits b).length))
      else
        chunkCmp
          (decomp ((a.drop (leadingNonDigits a).length).drop
            (leadingDigits (a.drop (leadingNonDigits a).length)).length))
          (decomp ((b.drop (leadingNonDigits b).length).drop
            (leadingDigits (b.drop (leadingNonDigits b).length)).length)) := by
  cases a with
  | nil => ?_
  | cons x xs => ?_
  all_goals cases b with
    | nil => ?_
    | cons y ys => ?_
  · exact absurd ⟨rfl, rfl⟩ hab
  · rw [decomp_nil, decomp_cons (List.cons_ne_nil y ys)]
    simp only [chunkCmp, pCmp, chunkStep_pad, lnd_nil, ld_nil, List.drop_nil, decomp_nil]
    exact ite_nest _ _ _
  · rw [decomp_nil, decomp_cons (List.cons_ne_nil x xs)]
    simp only [chunkCmp, pCmp, chunkStep_pad, lnd_nil, ld_nil, List.drop_nil, decomp_nil]
    exact ite_nest _ _ _
  · rw [decomp_cons (List.cons_ne_nil x xs), decomp_cons (List.cons_ne_nil y ys)]
    simp only [chunkCmp, pCmp, chunkStep_pad]
    exact ite_nest _ _ _

end Version

end OpkgGo

namespace OpkgGo

namespace Version

theorem cpAux_eq : ∀ (n : Nat) (a b : Str), a.length + b.length ≤ n →
    ∀ f, a.length + b.length ≤ f → cpAux f a b = chunkCmp (decomp a) (decomp b) := by
  intro n
  induction n with
  | zero =>
    intro a b hn f hf
    have ha : a = [] := by cases a <;> simp_all
    have hb : b = [] := by cases b <;> simp_all
    subst ha; subst hb
    cases f <;> simp [cpAux, decomp_nil, chunkCmp, pCmp]
  | succ n ih =>
    intro a b hn f hf
    by_cases hab : a = [] ∧ b = []
    · obtain ⟨rfl, rfl⟩ := hab
      cases f <;> simp [cpAux, decomp_nil, chunkCmp, pCmp]
    · cases f with
      | zero =>
        have ha : a = [] := by cases a <;> simp_all
        have hb : b = [] := by cases b <;> simp_all
        exact absurd ⟨ha, hb⟩ hab
      | succ g =>
        have hlenA : (leadingNonDigits a).length ≤ a.length :=
          length_takeWhile_le _ a
        have hlenB : (leadingNonDigits b).length ≤ b.length :=
          length_takeWhile_le _ b
        rw [chunkCmp_unfold a b hab]
        simp only [cpAux, if_neg hab]
        by_cases hnd : leadingNonDigits a ≠ [] ∨ leadingNonDigits b ≠ []
        · rw [if_pos hnd]
          by_cases hz : compareNonDigits (leadingNonDigits a) (leadingNonDigits b) = 0
          · rw [if_neg (by simpa using hz), if_neg (by simpa using hz)]
            have hcons : 1 ≤ (leadingNonDigits a).length + (leadingNonDigits b).length := by
              rcases hnd with h | h
              · have := List.length_pos.mpr h
                omega
              · have := List.length_pos.mpr h
                omega
            have hlen1 : (a.drop (leadingNonDigits a).length).length +
                (b.drop (leadingNonDigits b).length).length ≤ n := by
              simp only [List.length_drop]
              omega
            have hlen2 : (a.drop (leadingNonDigits a).length).length +
                (b.drop (leadingNonDigits b).length).length ≤ g := by
              simp only [List.length_drop]
              omega
            rw [ih _ _ hlen1 g hlen2]
            set a1 := a.drop (leadingNonDigits a).length with ha1
            set b1 := b.drop (leadingNonDigits b).length with hb1
            by_cases hab1 : a1 = [] ∧ b1 = []
            · obtain ⟨h1, h2⟩ := hab1
              rw [h1, h2]
              simp [decomp_nil, chunkCmp, pCmp, ld_nil, compareDigits]
            · rw [chunkCmp_unfold a1 b1 hab1]
              have hA : leadingNonDigits a1 = [] := by rw [ha1]; exact lnd_drop a
              have hB : leadingNonDigits b1 = [] := by rw [hb1]; exact lnd_drop b
              rw [hA, hB, compareNonDigits_nil_nil]
              simp only [ne_eq, not_true_eq_false, if_false, List.length_nil,
                List.drop_zero, ite_not]
          · rw [if_pos (by simpa using hz), if_pos (by simpa using hz)]
        · push_neg at hnd
          obtain ⟨hA, hB⟩ := hnd
          rw [if_neg (by simp [hA, hB])]
          rw [hA, hB, compareNonDigits_nil_nil]
          simp only [ne_eq, not_true_eq_false, if_false, List.length_nil, List.drop_zero]
          by_cases hd : leadingDigits a ≠ [] ∨ leadingDigits b ≠ []
          · rw [if_pos hd]
            by_cases hz2 : compareDigits (leadingDigits a) (leadingDigits b) = 0
            · rw [if_neg (by simpa using hz2), if_neg (by simpa using hz2)]
              have hcons : 1 ≤ (leadingDigits a).length + (leadingDigits b).length := by
                rcases hd with h | h
                · have := List.length_pos.mpr h
                  omega
                · have := List.length_pos.mpr h
                  omega
              have hdlA : (leadingDigits a).length ≤ a.length := length_takeWhile_le _ a
              have hdlB : (leadingDigits b).length ≤ b.length := length_takeWhile_le _ b
              have hlen1 : (a.drop (leadingDigits a).length).length +
                  (b.drop (leadingDigits b).length).length ≤ n := by
                simp only [List.length_drop]
                omega
              have hlen2 : (a.drop (leadingDigits a).length).length +
                  (b.drop (leadingDigits b).length).length ≤ g := by
                simp only [List.length_drop]
                omega
              exact ih _ _ hlen1 g hlen2
            · rw [if_pos (by simpa using hz2), if_pos (by simpa using hz2)]
          · push_neg at hd
            obtain ⟨hdA, hdB⟩ := hd
            rcases not_and_or.mp hab with h | h
            · exact absurd hdA (digits_of_no_nondigits h hA)
            · exact absurd hdB (digits_of_no_nondigits h hB)

theorem comparePart_eq (a b : Str) :
    comparePart a b = chunkCmp (decomp a) (decomp b) :=
  cpAux_eq (a.length + b.length) a b le_rfl (a.length + b.length) le_rfl

theorem comparePart_isCmp : IsCmp comparePart :=
  IsCmp.ofEq comparePart_eq (chunkCmp_isCmp.comap decomp)

end Version

end OpkgGo

namespace OpkgGo

namespace Version

theorem Compare_eq (a b : Str) : Compare a b = vcmp (vkey a) (vkey b) := by
  simp only [Compare, vcmp, vkey, cmpLex, cmpInt]
  by_cases he : (splitEpoch a).1 = (splitEpoch b).1
  · simp [he]
  · rw [if_pos he]
    by_cases hlt : (splitEpoch a).1 < (splitEpoch b).1
    · simp [hlt]
    · have hgt : (splitEpoch b).1 < (splitEpoch a).1 := by omega
      simp [hlt, hgt]

theorem Compare_isCmp : IsCmp Compare :=
  IsCmp.ofEq Compare_eq
    ((cmpLex_isCmp cmpInt_isCmp
      (cmpLex_isCmp comparePart_isCmp comparePart_isCmp)).comap vkey)

end Version

end OpkgGo

namespace OpkgGo

namespace Version

theorem cnd_head_lt {x y : Nat} (u v : Str) (h : order x < order y) :
    ∀ f, cndAux (f + 1) (x :: u) (y :: v) = -1 := by
  intro f
  simp [cndAux, h]

theorem compareNonDigits_cons_nil {x : Nat} (u : Str) (h : order x < 0) :
    compareNonDigits (x :: u) [] = -1 := by
  have hf : max (x :: u).length ([] : Str).length = u.length + 1 := by simp
  rw [compareNonDigits, hf]
  simp only [cndAux, List.headD]
  rw [if_pos (by simpa [order_zero] using h)]

theorem compareNonDigits_nil_cons {y : Nat} (v : Str) (h : 0 < order y) :
    compareNonDigits [] (y :: v) = -1 := by
  have hf : max ([] : Str).length (y :: v).length = v.length + 1 := by simp
  rw [compareNonDigits, hf]
  simp only [cndAux, List.headD]
  rw [if_pos (by simpa [order_zero] using h)]

theorem comparePart_nil_cons_nondigit {y : Nat} (v : Str)
    (hd : ¬ goIsDigit y) (h : 0 < order y) :
    comparePart [] (y :: v) = -1 := by
  have hbn : leadingNonDigits (y :: v) = y :: v.takeWhile (fun b => !goIsDigit b) := by
    simp [leadingNonDigits, List.takeWhile_cons, hd]
  rw [comparePart]
  simp only [List.length_nil, List.length_cons, Nat.zero_add, cpAux]
  rw [if_neg (by simp)]
  rw [if_pos (by simp [hbn])]
  rw [lnd_nil, hbn, compareNonDigits_nil_cons _ h]
  simp

theorem comparePart_nil_cons_digits {r : Str} (hr : r ≠ [])
    (hd : goIsDigit (r.headD 0)) (hnz : (leadingDigits r).any (fun c => c ≠ 48)) :
    comparePart [] r = -1 := by
  obtain ⟨y, v, rfl⟩ : ∃ y v, r = y :: v := by
    cases r with
    | nil => exact absurd rfl hr
    | cons y v => exact ⟨y, v, rfl⟩
  simp only [List.headD] at hd
  have hbn : leadingNonDigits (y :: v) = [] := by
    simp [leadingNonDigits, List.takeWhile_cons, hd]
  have hbd : leadingDigits (y :: v) = y :: v.takeWhile goIsDigit := by
    simp [leadingDigits, List.takeWhile_cons, hd]
  have hdrop : (leadingDigits (y :: v)).dropWhile (· == 48) ≠ [] := by
    intro hc
    rw [List.dropWhile_eq_nil_iff] at hc
    simp only [List.any_eq_true] at hnz
    obtain ⟨c, hc1, hc2⟩ := hnz
    have := hc c hc1
    simp at this hc2
    exact hc2 this
  have hcd : compareDigits [] (leadingDigits (y :: v)) = -1 := by
    simp only [compareDigits, List.dropWhile_nil, List.length_nil]
    rw [if_pos, if_pos]
    · exact Nat.pos_of_ne_zero (by simpa [List.length_eq_zero] using hdrop)
    · have := Nat.pos_of_ne_zero (show ((leadingDigits (y :: v)).dropWhile (· == 48)).length ≠ 0 by
        simpa [List.length_eq_zero] using hdrop)
      omega
  rw [comparePart]
  simp only [List.length_nil, List.length_cons, Nat.zero_add, cpAux]
  rw [if_neg (by simp)]
  rw [if_neg (by simp [hbn, lnd_nil])]
  simp only [ld_nil]
  rw [if_pos (by simp [hbd])]
  rw [hcd]
  simp

end Version

/-- C3: for all version strings `a` and `b`, `Compare(a,b)` is one of
`-1`, `0`, `1`; `Compare(a,a) = 0`; `Compare(a,b) = -Compare(b,a)`; and
`Compare` is transitive: if `Compare(a,b) ≤ 0` and `Compare(b,c) ≤ 0`
then `Compare(a,c) ≤ 0`.  Version strings are arbitrary byte sequences. -/
theorem claim_C3 :
    (∀ a b : Str, Version.Compare a b = -1 ∨ Version.Compare a b = 0 ∨
       Version.Compare a b = 1) ∧
    (∀ a : Str, Version.Compare a a = 0) ∧
    (∀ a b : Str, Version.Compare a b = -Version.Compare b a) ∧
    (∀ a b c : Str, Version.Compare a b ≤ 0 → Version.Compare b c ≤ 0 →
       Version.Compare a c ≤ 0) :=
  ⟨Version.Compare_isCmp.range,
   Version.Compare_isCmp.refl,
   fun a b => Version.Compare_isCmp.flip b a,
   Version.Compare_isCmp.leTrans⟩

/-- Witness for C3: the transitivity component applied at concrete
versions, with its hypotheses checked by computation. -/
theorem claim_C3_witness :
    Version.Compare (bs "1.0") (bs "2.0~rc1") ≤ 0 :=
  claim_C3.2.2.2 (bs "1.0") (bs "1.5-2") (bs "2.0~rc1") (by decide) (by decide)

/-- C4 counterexample: the claim's general clause says that whenever one
side of a part is exhausted and the other side's remainder does not begin
with `~`, the exhausted side compares as less.  The remainder `"0"` is
non-empty and does not begin with `~`, yet `comparePart` judges the sides
equal (the all-zero digit run equals the empty digit run), and at the
`Compare` level `"1."` and `"1.0"` compare equal, not `-1`. -/
theorem claim_C4_counterexample :
    (bs "0" ≠ [] ∧ (bs "0").headD 0 ≠ 126) ∧
    ¬ Version.comparePart [] (bs "0") = -1 ∧
    Version.Compare (bs "1.") (bs "1.0") = 0 := by
  refine ⟨⟨?_, ?_⟩, ?_, ?_⟩ <;> decide

/-- Within a part, a residual beginning with `~` makes its own side
smaller, whatever follows and whatever the other side has left. -/
theorem comparePart_tilde_left (t : Str) : Version.comparePart (126 :: t) [] = -1 := by
  have h126 : ¬ Version.goIsDigit 126 := by decide
  have hord : Version.order 126 < 0 := by decide
  have hbn : Version.leadingNonDigits (126 :: t) =
      126 :: t.takeWhile (fun b => !Version.goIsDigit b) := by
    simp [Version.leadingNonDigits, List.takeWhile_cons, h126]
  rw [Version.comparePart]
  simp only [List.length_cons, List.length_nil, Nat.add_zero, Version.cpAux]
  rw [if_neg (by simp)]
  rw [if_pos (by simp [hbn])]
  rw [hbn, Version.lnd_nil, Version.compareNonDigits_cons_nil _ hord]
  simp

/-- C4 as amended: `Compare("1.0~beta","1.0") < 0` and
`Compare("1","1~") > 0`; within a part, when one side is exhausted and the
other side's remainder begins with `~`, the side with remaining content
compares as less; and for a remainder beginning with any other non-digit
of positive weight, or with a digit run containing a nonzero digit, the
exhausted side compares as less.  (A remainder whose leading digit run is
all zeros — or that begins with a NUL byte, weight 0 — escapes the original
claim: the sides can compare equal, or the comparison can continue past
the run, as the counterexample shows.) -/
theorem claim_C4 :
    Version.Compare (bs "1.0~beta") (bs "1.0") = -1 ∧
    Version.Compare (bs "1") (bs "1~") = 1 ∧
    (∀ t : Str, Version.comparePart (126 :: t) [] = -1 ∧
       Version.comparePart [] (126 :: t) = 1) ∧
    (∀ r : Str, r ≠ [] →
       ((¬ Version.goIsDigit (r.headD 0) ∧ 0 < Version.order (r.headD 0)) ∨
        (Version.goIsDigit (r.headD 0) ∧
          (Version.leadingDigits r).any (fun c => c ≠ 48))) →
       Version.comparePart [] r = -1 ∧ Version.comparePart r [] = 1) := by
  refine ⟨by decide, by decide, fun t => ⟨comparePart_tilde_left t, ?_⟩,
    fun r hr hcond => ?_⟩
  · have hflip := Version.comparePart_isCmp.flip (126 :: t) []
    rw [comparePart_tilde_left t] at hflip
    omega
  · have hneg : Version.comparePart [] r = -1 := by
      rcases hcond with ⟨hnd, hpos⟩ | ⟨hdig, hnz⟩
      · obtain ⟨y, v, rfl⟩ : ∃ y v, r = y :: v := by
          cases r with
          | nil => exact absurd rfl hr
          | cons y v => exact ⟨y, v, rfl⟩
        simp only [List.headD] at hnd hpos
        exact Version.comparePart_nil_cons_nondigit v hnd hpos
      · exact Version.comparePart_nil_cons_digits hr hdig hnz
    refine ⟨hneg, ?_⟩
    have hflip := Version.comparePart_isCmp.flip r []
    rw [hneg] at hflip
    omega

end OpkgGo

namespace OpkgGo

/-- C5: code-bug evidence for `StatusPath`.  A configuration holding only
`option status_dir /usr/lib/opkg` parses into a config whose `StatusPath`
fails with the `status path not configured` error — the code only consults
`options["status"]` and the `root` destination, with no `status_file` or
`status_dir` fallback — although the specification (and the repository's
own `TestStatusPathOptions`) requires `/usr/lib/opkg/status`.  The two
cascade stages that do exist behave as claimed. -/
theorem claim_C5 :
    Config.parseLines [bs "option status_dir /usr/lib/opkg"] =
      Except.ok { Config.emptyConfig with
                  options := [(bs "status_dir", bs "/usr/lib/opkg")] } ∧
    Config.StatusPath { Config.emptyConfig with
                        options := [(bs "status_dir", bs "/usr/lib/opkg")] } =
      Except.error GoErr.statusPathNotConfigured ∧
    Config.StatusPath { Config.emptyConfig with
                        options := [(bs "status_file", bs "/var/lib/opkg/status")] } =
      Except.error GoErr.statusPathNotConfigured ∧
    Config.StatusPath { Config.emptyConfig with
                        options := [(bs "status", bs "/var/lib/opkg/status")] } =
      Except.ok (bs "/var/lib/opkg/status") ∧
    Config.StatusPath { Config.emptyConfig with
                        destinations := [{ name := bs "root", path := bs "/" }] } =
      Except.ok (bs "/usr/lib/opkg/status") := by
  refine ⟨?_, ?_, ?_, ?_, ?_⟩ <;> decide

/-- C7: code-bug evidence for `ListUpgradable`.  The status entry `foo`
has `Status` `deinstall ok config-files`, which does not contain the
substring `installed`, so the claim (and the spec, and the function's own
documentation) excludes it; the code nonetheless reports it as an upgrade
candidate because the loop never consults the installed predicate. -/
theorem claim_C7 :
    goStrContains (bs "deinstall ok config-files") (bs "installed") = false ∧
    Pkgdb.statusInstalled Fix.st7 (bs "foo") = false ∧
    Pkgmgr.listUpgradable Fix.m7 [] =
      Except.ok [{ name := bs "foo", installed := bs "1.0", available := bs "2.0",
                   description := bs "a tool" }] := by
  refine ⟨?_, ?_, ?_⟩ <;> decide

/-- C8: in the installed universe where `A` depends on `B`, `B` on `C`
and `D` on `A`, the reverse-dependency query on field `Depends` with the
single pattern `C` returns `{A, B, D}` sorted ascending when recursive
(matched names are enqueued as new targets) and exactly `{B}` when not. -/
theorem claim_C8 :
    Pkgmgr.reverseDependencies Fix.m8
      { field := bs "Depends", includeAll := false, recursive := true,
        patterns := [bs "C"] } = Except.ok [bs "A", bs "B", bs "D"] ∧
    Pkgmgr.reverseDependencies Fix.m8
      { field := bs "Depends", includeAll := false, recursive := false,
        patterns := [bs "C"] } = Except.ok [bs "B"] := by
  refine ⟨?_, ?_⟩ <;> decide

/-- C10: with indexes loaded, `ReverseDependencies` rejects an empty
pattern list with the `at least one package name or glob is required`
error and returns no names, instead of treating it as match-all or as
matching nothing. -/
theorem claim_C10 :
    ∀ (m : Pkgmgr.Manager) (q : Pkgmgr.ReverseDependencyQuery),
      m.indexesLoaded = true → q.patterns = [] →
      Pkgmgr.reverseDependencies m q = Except.error GoErr.atLeastOnePattern := by
  intro m q hm hq
  simp [Pkgmgr.reverseDependencies, Pkgmgr.ensureIndexesLoaded, hm, hq]

/-- Witness for C10 at a concrete loaded manager and query. -/
theorem claim_C10_witness :
    Pkgmgr.reverseDependencies Fix.m8
      { field := bs "Depends", includeAll := false, recursive := false,
        patterns := [] } = Except.error GoErr.atLeastOnePattern :=
  claim_C10 Fix.m8
    { field := bs "Depends", includeAll := false, recursive := false, patterns := [] }
    (by decide) rfl

end OpkgGo

namespace OpkgGo

/-- C1 (spec-modelled `indexesLoaded` flag, see `Pkgmgr.Manager`): a newly
constructed manager has the flag down, and then all six index-backed
queries — `ListPackages` with installed-only false, `ListUpgradable`,
`FindPackages`, `InfoParagraphs`, `Dependencies`, `ReverseDependencies` —
fail with the distinguished indexes-not-loaded error; a successful update
raises the flag; a failed update leaves the manager — the flag included —
untouched; no later update lowers the flag; and with the flag up none of
the six queries ever returns that error again. -/
theorem claim_C1 :
    (∀ (cfg : Config.Config) (st : Pkgdb.StatusDB) (cache : Str),
       (Pkgmgr.newManager cfg st cache).indexesLoaded = false) ∧
    (∀ m : Pkgmgr.Manager, m.indexesLoaded = false →
       (∀ opts : Pkgmgr.ListOptions, opts.installedOnly = false →
          Pkgmgr.listPackages m opts = Except.error GoErr.indexesNotLoaded) ∧
       (∀ pats, Pkgmgr.listUpgradable m pats = Except.error GoErr.indexesNotLoaded) ∧
       (∀ pat, Pkgmgr.findPackages m pat = Except.error GoErr.indexesNotLoaded) ∧
       (∀ pats, Pkgmgr.infoParagraphs m pats = Except.error GoErr.indexesNotLoaded) ∧
       (∀ name, Pkgmgr.dependencies m name = Except.error GoErr.indexesNotLoaded) ∧
       (∀ q, Pkgmgr.reverseDependencies m q = Except.error GoErr.indexesNotLoaded)) ∧
    (∀ m arrivals m', Pkgmgr.managerUpdate m arrivals = (m', none) →
       m'.indexesLoaded = true) ∧
    (∀ m arrivals m' e, Pkgmgr.managerUpdate m arrivals = (m', some e) → m' = m) ∧
    (∀ m arrivals, m.indexesLoaded = true →
       (Pkgmgr.managerUpdate m arrivals).1.indexesLoaded = true) ∧
    (∀ m : Pkgmgr.Manager, m.indexesLoaded = true →
       (∀ opts, Pkgmgr.listPackages m opts ≠ Except.error GoErr.indexesNotLoaded) ∧
       (∀ pats, Pkgmgr.listUpgradable m pats ≠ Except.error GoErr.indexesNotLoaded) ∧
       (∀ pat, Pkgmgr.findPackages m pat ≠ Except.error GoErr.indexesNotLoaded) ∧
       (∀ pats, Pkgmgr.infoParagraphs m pats ≠ Except.error GoErr.indexesNotLoaded) ∧
       (∀ name, Pkgmgr.dependencies m name ≠ Except.error GoErr.indexesNotLoaded) ∧
       (∀ q, Pkgmgr.reverseDependencies m q ≠ Except.error GoErr.indexesNotLoaded)) := by
  refine ⟨fun cfg st cache => rfl, fun m hm => ?_, fun m arrivals m' h => ?_,
    fun m arrivals m' e h => ?_, fun m arrivals hm => ?_, fun m hm => ?_⟩
  · refine ⟨fun opts ho => ?_, fun pats => ?_, fun pat => ?_, fun pats => ?_,
      fun name => ?_, fun q => ?_⟩
    · simp [Pkgmgr.listPackages, Pkgmgr.ensureIndexesLoaded, hm, ho]
    · simp [Pkgmgr.listUpgradable, Pkgmgr.ensureIndexesLoaded, hm]
    · simp [Pkgmgr.findPackages, Pkgmgr.ensureIndexesLoaded, hm]
    · simp [Pkgmgr.infoParagraphs, Pkgmgr.ensureIndexesLoaded, hm]
    · simp [Pkgmgr.dependencies, Pkgmgr.ensureIndexesLoaded, hm]
    · simp [Pkgmgr.reverseDependencies, Pkgmgr.ensureIndexesLoaded, hm]
  · unfold Pkgmgr.managerUpdate at h
    cases hup : Repo.repoUpdate arrivals with
    | error e => rw [hup] at h; simp at h
    | ok idxs =>
      rw [hup] at h
      simp only [Prod.mk.injEq] at h
      rw [← h.1]
  · unfold Pkgmgr.managerUpdate at h
    cases hup : Repo.repoUpdate arrivals with
    | error e0 =>
      rw [hup] at h
      exact ((Prod.mk.injEq .. ▸ h).1).symm
    | ok idxs => rw [hup] at h; simp at h
  · unfold Pkgmgr.managerUpdate
    cases hup : Repo.repoUpdate arrivals with
    | error e => simpa using hm
    | ok idxs => simp
  · refine ⟨fun opts => ?_, fun pats => ?_, fun pat => ?_, fun pats => ?_,
      fun name => ?_, fun q => ?_⟩
    · by_cases ho : opts.installedOnly
      · simp [Pkgmgr.listPackages, ho]
      · simp [Pkgmgr.listPackages, Pkgmgr.ensureIndexesLoaded, hm, ho]
    · simp [Pkgmgr.listUpgradable, Pkgmgr.ensureIndexesLoaded, hm]
    · simp [Pkgmgr.findPackages, Pkgmgr.ensureIndexesLoaded, hm]
    · simp [Pkgmgr.infoParagraphs, Pkgmgr.ensureIndexesLoaded, hm]
    · simp only [Pkgmgr.dependencies, Pkgmgr.ensureIndexesLoaded, hm, if_true]
      cases Repo.indexSetFind m.indexes name with
      | some pkg => simp
      | none =>
        cases mapLookup m.status name with
        | some entry => simp
        | none => simp
    · simp only [Pkgmgr.reverseDependencies, Pkgmgr.ensureIndexesLoaded, hm, if_true]
      by_cases hq : q.patterns = [] <;> simp [hq]

/-- Witness for C1: its components applied at concrete managers — a fresh
manager rejects a query, a successful concrete update raises the flag, and
the loaded manager of the reverse-dependency fixture answers without the
indexes-not-loaded error. -/
theorem claim_C1_witness :
    Pkgmgr.listUpgradable (Pkgmgr.newManager Config.emptyConfig [] (bs "/tmp")) [] =
      Except.error GoErr.indexesNotLoaded ∧
    (Pkgmgr.managerUpdate Fix.m0 [Except.ok Fix.i1]).1.indexesLoaded = true ∧
    Pkgmgr.findPackages Fix.m8 (bs "a") ≠ Except.error GoErr.indexesNotLoaded :=
  ⟨((claim_C1.2.1 (Pkgmgr.newManager Config.emptyConfig [] (bs "/tmp")) rfl).2.1) [],
   claim_C1.2.2.1 Fix.m0 [Except.ok Fix.i1]
     (Pkgmgr.managerUpdate Fix.m0 [Except.ok Fix.i1]).1 (by decide),
   (claim_C1.2.2.2.2.2 Fix.m8 (by decide)).2.2.1 (bs "a")⟩

end OpkgGo

namespace OpkgGo

namespace Repo

/-- The loop state of `repoUpdate`: the recorded error after the whole
fold is the already-recorded one, or else the first error among the
remaining arrivals. -/
theorem repoUpdate_foldl_snd (l : List (Except GoErr Index)) :
    ∀ acc : List Index × Option GoErr,
      (l.foldl
        (fun (acc : List Index × Option GoErr) r =>
          match r with
          | .error e =>
            (acc.1, match acc.2 with
                    | none => some e
                    | some e0 => some e0)
          | .ok idx => (acc.1 ++ [idx], acc.2)) acc).2 =
      (match acc.2 with
       | some e0 => some e0
       | none => firstFeedError l) := by
  induction l with
  | nil =>
    intro acc
    cases hacc : acc.2 <;> simp [firstFeedError, hacc]
  | cons r rest ih =>
    intro acc
    cases r with
    | error e =>
      rw [List.foldl_cons, ih]
      cases hacc : acc.2 <;> simp [firstFeedError, List.findSome?_cons]
    | ok idx =>
      rw [List.foldl_cons, ih]
      cases hacc : acc.2 <;> simp [firstFeedError, List.findSome?_cons]

/-- `repo.Update` returns exactly the first recorded failure. -/
theorem repoUpdate_error (l : List (Except GoErr Index)) (e0 : GoErr)
    (h : firstFeedError l = some e0) : repoUpdate l = Except.error e0 := by
  unfold repoUpdate
  have hsnd := repoUpdate_foldl_snd l ([], none)
  simp only at hsnd
  dsimp only
  rw [hsnd, h]

/-- An arrival that is an error forces a recorded first failure. -/
theorem firstFeedError_of_mem {l : List (Except GoErr Index)} {e : GoErr}
    (h : Except.error e ∈ l) : ∃ e0, firstFeedError l = some e0 := by
  cases hf : firstFeedError l with
  | some e0 => exact ⟨e0, rfl⟩
  | none =>
    unfold firstFeedError at hf
    rw [List.findSome?_eq_none_iff] at hf
    have := hf _ h
    simp at this

/-- When both index URLs of a feed fail, `fetchFeed` fails. -/
theorem fetchFeed_error_of_fetches (gb gz : Str → Except GoErr Str)
    (f : Config.Feed) (cd : Str) (e1 e2 : GoErr)
    (h1 : gb (trimOneSuffix f.uri (bs "/") ++ bs "/Packages.gz") = .error e1)
    (h2 : gb (trimOneSuffix f.uri (bs "/") ++ bs "/Packages") = .error e2) :
    ∃ e, fetchFeed gb gz f cd = Except.error e := by
  unfold fetchFeed
  by_cases hu : f.uri = []
  · exact ⟨_, by rw [if_pos hu]⟩
  · rw [if_neg hu]
    dsimp only
    rw [h1]
    dsimp only
    rw [h2]
    exact ⟨_, rfl⟩

end Repo

/-- C2: when at least one feed of an update fails on both its
`Packages.gz` and `Packages` URLs, the update returns the first recorded
failure (first in goroutine completion order), the successfully fetched
indexes are discarded, and the manager — its index set included — is
exactly what it was before the call.  `feedsArr` is the completion order,
some permutation of the configured feeds. -/
theorem claim_C2 :
    ∀ (m : Pkgmgr.Manager) (gb gz : Str → Except GoErr Str)
      (feedsArr : List Config.Feed),
      feedsArr.Perm m.cfg.feeds →
      (∃ f ∈ feedsArr, ∃ e1 e2,
         gb (trimOneSuffix f.uri (bs "/") ++ bs "/Packages.gz") = .error e1 ∧
         gb (trimOneSuffix f.uri (bs "/") ++ bs "/Packages") = .error e2) →
      ∃ e0,
        Repo.firstFeedError
          (feedsArr.map fun f => (Repo.fetchFeed gb gz f m.cache).map Prod.fst) =
            some e0 ∧
        Pkgmgr.managerUpdate m
          (feedsArr.map fun f => (Repo.fetchFeed gb gz f m.cache).map Prod.fst) =
          (m, some e0) := by
  intro m gb gz feedsArr _hperm hfail
  obtain ⟨f, hf, e1, e2, h1, h2⟩ := hfail
  obtain ⟨e, he⟩ := Repo.fetchFeed_error_of_fetches gb gz f m.cache e1 e2 h1 h2
  have hmem : Except.error e ∈
      feedsArr.map fun f => (Repo.fetchFeed gb gz f m.cache).map Prod.fst := by
    refine List.mem_map.mpr ⟨f, hf, ?_⟩
    rw [he]
    rfl
  obtain ⟨e0, he0⟩ := Repo.firstFeedError_of_mem hmem
  refine ⟨e0, he0, ?_⟩
  unfold Pkgmgr.managerUpdate
  rw [Repo.repoUpdate_error _ e0 he0]

/-- Witness for C2: a two-feed update in which every URL fails returns the
network failure of the first-completing feed and leaves the manager intact. -/
theorem claim_C2_witness :
    ∃ e0,
      Repo.firstFeedError
        ([Fix.f2, Fix.f1].map fun f =>
          (Repo.fetchFeed Fix.gbDown Fix.gz6 f Fix.m0.cache).map Prod.fst) = some e0 ∧
      Pkgmgr.managerUpdate Fix.m0
        ([Fix.f2, Fix.f1].map fun f =>
          (Repo.fetchFeed Fix.gbDown Fix.gz6 f Fix.m0.cache).map Prod.fst) =
        (Fix.m0, some e0) :=
  claim_C2 Fix.m0 Fix.gbDown Fix.gz6 [Fix.f2, Fix.f1] (by decide)
    ⟨Fix.f2, by decide, GoErr.network (bs "down"), GoErr.network (bs "down"),
      by decide, by decide⟩

end OpkgGo

namespace OpkgGo

/-- C6 counterexample: a concrete successful feed fetch writes the cache
file with a single direct write; that trace is not the temp-file-plus-
rename discipline the claim asserts. -/
theorem claim_C6_counterexample :
    Repo.fetchFeed Fix.gb6 Fix.gz6 Fix.f1 (bs "/tmp") =
      Except.ok
        ({ feed := Fix.f1,
           packages := [(bs "foo",
             { name := bs "foo", version := bs "1.0", architecture := [],
               description := [], filename := [], size := [], feed := Fix.f1,
               raw := ⟨[(bs "Package", bs "foo"), (bs "Version", bs "1.0")]⟩ })] },
         [Repo.FsOp.write (bs "/tmp/feed1.Packages") (bs "Package: foo\nVersion: 1.0\n")]) ∧
    [Repo.FsOp.write (bs "/tmp/feed1.Packages") (bs "Package: foo\nVersion: 1.0\n")] ≠
      atomicWriteOps (bs "/tmp/feed1.Packages") (bs "Package: foo\nVersion: 1.0\n") := by
  refine ⟨?_, ?_⟩ <;> decide

/-- C6 as amended: with a non-empty cache directory, a feed whose index
bytes are fetched and parsed successfully writes the raw uncompressed
bytes to `cacheDir/<feedName>.Packages` with a single direct `WriteFile` —
not with the temp-file-plus-rename discipline; `DownloadToFile`, by
contrast, does use that discipline (directory creation, then write to
`path + ".tmp"`, then rename onto `path`). -/
theorem claim_C6 :
    (∀ (gb gz : Str → Except GoErr Str) (feed : Config.Feed) (cd : Str)
       (idx : Repo.Index) (ops : List Repo.FsOp), cd ≠ [] →
       Repo.fetchFeed gb gz feed cd = Except.ok (idx, ops) →
       ∃ data,
         ops = [Repo.FsOp.write (goFilepathJoin cd (feed.name ++ bs ".Packages")) data] ∧
         ops ≠ atomicWriteOps (goFilepathJoin cd (feed.name ++ bs ".Packages")) data) ∧
    (∀ (gb : Str → Except GoErr Str) (url path : Str) (ops : List Repo.FsOp),
       downloadToFile gb url path = Except.ok ops →
       ∃ data,
         ops = [Repo.FsOp.mkdirAll (goFilepathDir path),
                Repo.FsOp.write (path ++ bs ".tmp") data,
                Repo.FsOp.rename (path ++ bs ".tmp") path] ∧
         ops.drop 1 = atomicWriteOps path data) := by
  constructor
  · intro gb gz feed cd idx ops hcd h
    unfold Repo.fetchFeed at h
    split at h
    · exact absurd h (by simp)
    · dsimp only at h
      split at h
      · exact absurd h (by simp)
      · split at h
        · exact absurd h (by simp)
        · split at h
          · exact absurd h (by simp)
          · have hops := congrArg Prod.snd (Except.ok.inj h)
            simp only [Prod.snd] at hops
            refine ⟨_, hops.symm, ?_⟩
            rw [← hops]
            intro hc
            have := congrArg List.length hc
            simp [atomicWriteOps] at this
  · intro gb url path ops h
    unfold downloadToFile at h
    split at h
    · exact absurd h (by simp)
    · rename_i data _
      refine ⟨data, ?_, ?_⟩
      · exact (Except.ok.inj h).symm
      · rw [← Except.ok.inj h]
        rfl

/-- Witness for C6: the amended statement applied to the concrete fetch
of the counterexample and to a concrete download. -/
theorem claim_C6_witness :
    (∃ data,
       [Repo.FsOp.write (bs "/tmp/feed1.Packages") (bs "Package: foo\nVersion: 1.0\n")] =
         [Repo.FsOp.write (goFilepathJoin (bs "/tmp") (Fix.f1.name ++ bs ".Packages")) data] ∧
       [Repo.FsOp.write (bs "/tmp/feed1.Packages") (bs "Package: foo\nVersion: 1.0\n")] ≠
         atomicWriteOps (goFilepathJoin (bs "/tmp") (Fix.f1.name ++ bs ".Packages")) data) := by
  have h := claim_C6.1 Fix.gb6 Fix.gz6 Fix.f1 (bs "/tmp")
    ({ feed := Fix.f1,
       packages := [(bs "foo",
         { name := bs "foo", version := bs "1.0", architecture := [],
           description := [], filename := [], size := [], feed := Fix.f1,
           raw := ⟨[(bs "Package", bs "foo"), (bs "Version", bs "1.0")]⟩ })] })
    [Repo.FsOp.write (bs "/tmp/feed1.Packages") (bs "Package: foo\nVersion: 1.0\n")]
    (by decide) (by decide)
  exact h

end OpkgGo

namespace OpkgGo

namespace Repo

/-- The `repoUpdate` fold over all-successful arrivals appends them in
arrival order and records no error. -/
theorem repoUpdate_foldl_ok (l : List Index) :
    ∀ acc : List Index × Option GoErr,
      (l.map Except.ok).foldl
        (fun (acc : List Index × Option GoErr) r =>
          match r with
          | .error e =>
            (acc.1, match acc.2 with
                    | none => some e
                    | some e0 => some e0)
          | .ok idx => (acc.1 ++ [idx], acc.2)) acc = (acc.1 ++ l, acc.2) := by
  induction l with
  | nil => intro acc; simp
  | cons idx rest ih =>
    intro acc
    rw [List.map_cons, List.foldl_cons, ih]
    simp

/-- `repo.Update` with only successful feeds returns them in completion
order. -/
theorem repoUpdate_ok (idxs : List Index) :
    repoUpdate (idxs.map Except.ok) = Except.ok idxs := by
  unfold repoUpdate
  dsimp only
  rw [repoUpdate_foldl_ok idxs ([], none)]
  simp

end Repo

/-- C9 counterexample: with feeds declared `[f1, f2]` and goroutine
completion order `[i2, i1]`, the successful update stores the index list
in completion order — not declaration order — and `Find` on the shared
name `p` returns the package of the later-declared feed `f2`. -/
theorem claim_C9_counterexample :
    Fix.m0.cfg.feeds = [Fix.f1, Fix.f2] ∧
    Pkgmgr.managerUpdate Fix.m0 [Except.ok Fix.i2, Except.ok Fix.i1] =
      ({ Fix.m0 with indexes := [Fix.i2, Fix.i1], indexesLoaded := true }, none) ∧
    ([Fix.i2, Fix.i1] : List Repo.Index) ≠ [Fix.i1, Fix.i2] ∧
    Fix.i1.feed = Fix.f1 ∧ Fix.i2.feed = Fix.f2 ∧
    mapLookup Fix.i1.packages (bs "p") = some Fix.p1 ∧
    mapLookup Fix.i2.packages (bs "p") = some Fix.p2 ∧
    Repo.indexSetFind [Fix.i2, Fix.i1] (bs "p") = some Fix.p2 ∧
    Fix.p2 ≠ Fix.p1 := by
  refine ⟨?_, ?_, ?_, ?_, ?_, ?_, ?_, ?_, ?_⟩ <;> decide

/-- C9 as amended: after a successful update the manager stores the
successful indexes exactly in goroutine completion order (an arbitrary
interleaving of the declared feeds, with no re-sorting to declaration
order), and `IndexSet.Find` is first-wins in that stored order: an index
holding the name wins over everything after it, and an index without the
name defers to the rest. -/
theorem claim_C9 :
    (∀ (m : Pkgmgr.Manager) (idxs : List Repo.Index),
       Pkgmgr.managerUpdate m (idxs.map Except.ok) =
         ({ m with indexes := idxs, indexesLoaded := true }, none)) ∧
    (∀ (idx : Repo.Index) (idxs : List Repo.Index) (name : Str) (p : Repo.Package),
       mapLookup idx.packages name = some p →
       Repo.indexSetFind (idx :: idxs) name = some p) ∧
    (∀ (idx : Repo.Index) (idxs : List Repo.Index) (name : Str),
       mapLookup idx.packages name = none →
       Repo.indexSetFind (idx :: idxs) name = Repo.indexSetFind idxs name) := by
  refine ⟨fun m idxs => ?_, fun idx idxs name p h => ?_, fun idx idxs name h => ?_⟩
  · unfold Pkgmgr.managerUpdate
    rw [Repo.repoUpdate_ok]
  · conv_lhs => rw [Repo.indexSetFind]
    rw [h]
  · conv_lhs => rw [Repo.indexSetFind]
    rw [h]

/-- Witness for C9: the amended statement applied at the counterexample's
completion order and at the two concrete lookups. -/
theorem claim_C9_witness :
    Pkgmgr.managerUpdate Fix.m0 ([Fix.i2, Fix.i1].map Except.ok) =
      ({ Fix.m0 with indexes := [Fix.i2, Fix.i1], indexesLoaded := true }, none) ∧
    Repo.indexSetFind [Fix.i2, Fix.i1] (bs "p") = some Fix.p2 ∧
    Repo.indexSetFind [Fix.i1] (bs "p") = some Fix.p1 :=
  ⟨claim_C9.1 Fix.m0 [Fix.i2, Fix.i1],
   claim_C9.2.1 Fix.i2 [Fix.i1] (bs "p") Fix.p2 (by decide),
   claim_C9.2.1 Fix.i1 [] (bs "p") Fix.p1 (by decide)⟩

end OpkgGo

namespace OpkgGo

/-- Witness for C4: the general clauses applied at concrete residuals. -/
theorem claim_C4_witness :
    (Version.comparePart (126 :: bs "rc1") [] = -1 ∧
     Version.comparePart [] (126 :: bs "rc1") = 1) ∧
    (Version.comparePart [] (bs "abc") = -1 ∧ Version.comparePart (bs "abc") [] = 1) :=
  ⟨claim_C4.2.2.1 (bs "rc1"),
   claim_C4.2.2.2 (bs "abc") (by decide) (Or.inl (by decide))⟩

end OpkgGo
